import Mathlib

/-!
Verification of the arXiv Go client library (query builder/encoder/parser,
retry engine, interceptor chain, pagination cursors).

Strings are modelled as `List Char`; Go iterates over bytes, and every
construct relevant here (token separators, parentheses, brackets, colons,
digits, ASCII keywords) is a single-byte ASCII character, so the embedding
agrees with the byte-level machine on all inputs considered. `time.Time`
values are modelled at minute precision (`ArxivDate`), which is exactly the
precision used by `query.go` (format `200601021504` and `parseArxivDate`).
-/

namespace Arxiv

abbrev Str := List Char

/-- Go `strings.Join(parts, " ")`. -/
def joinSpace : List Str → Str
  | [] => []
  | [t] => t
  | t :: t2 :: ts => t ++ ' ' :: joinSpace (t2 :: ts)

/-- ASCII upper-casing of one character, the fragment of Go `strings.ToUpper`
relevant to operator keywords. -/
def asciiUpperChar (c : Char) : Char :=
  if 'a' ≤ c ∧ c ≤ 'z' then Char.ofNat (c.toNat - 32) else c

/-- Go `strings.ToUpper` restricted to ASCII. -/
def asciiUpper (s : Str) : Str := s.map asciiUpperChar

/-- The three boolean operators of `query.go`. -/
inductive QueryOperator : Type where
  | opAnd : QueryOperator
  | opOr : QueryOperator
  | opAndNot : QueryOperator
deriving DecidableEq, Repr

/-- Wire spelling of an operator (`opAnd = "AND"` etc. in `query.go`). -/
def opName : QueryOperator → Str
  | .opAnd => "AND".toList
  | .opOr => "OR".toList
  | .opAndNot => "ANDNOT".toList

/-- The query fields declared in `query.go` (`fieldTitle = "ti"`, ...). -/
inductive QueryField : Type where
  | fieldTitle | fieldAbstract | fieldAuthor | fieldCategory
  | fieldComment | fieldJournal | fieldAll | fieldSubmittedDate
deriving DecidableEq, Repr

/-- Wire spelling of a query field. -/
def fieldName : QueryField → Str
  | .fieldTitle => "ti".toList
  | .fieldAbstract => "abs".toList
  | .fieldAuthor => "au".toList
  | .fieldCategory => "cat".toList
  | .fieldComment => "co".toList
  | .fieldJournal => "jr".toList
  | .fieldAll => "all".toList
  | .fieldSubmittedDate => "submittedDate".toList

/-- A `time.Time` at minute precision, the precision used by the date-range
queries (`Format("200601021504")` / `parseArxivDate`). -/
structure ArxivDate : Type where
  year : Nat
  month : Nat
  day : Nat
  hour : Nat
  minute : Nat
deriving DecidableEq, Repr

/-- Decimal digit character for `n ≤ 9`. -/
def digitChar : Nat → Char
  | 0 => '0' | 1 => '1' | 2 => '2' | 3 => '3' | 4 => '4'
  | 5 => '5' | 6 => '6' | 7 => '7' | 8 => '8' | _ => '9'

/-- Zero-padded 4-digit decimal rendering (Go `Format` verb `2006`). -/
def pad4 (n : Nat) : Str :=
  [digitChar (n / 1000 % 10), digitChar (n / 100 % 10),
   digitChar (n / 10 % 10), digitChar (n % 10)]

/-- Zero-padded 2-digit decimal rendering (Go `Format` verbs `01`, ...). -/
def pad2 (n : Nat) : Str :=
  [digitChar (n / 10 % 10), digitChar (n % 10)]

/-- Go `t.Format("200601021504")`: the 12-digit `YYYYMMDDhhmm` rendering. -/
def encodeDate (d : ArxivDate) : Str :=
  pad4 d.year ++ pad2 d.month ++ pad2 d.day ++ pad2 d.hour ++ pad2 d.minute

/-- The literal separator inside a date range, `" TO "`. -/
def sepTO : Str := [' ', 'T', 'O', ' ']

/-- Query AST node: the `queryNode` implementations of `query.go`
(`fieldQuery`, `groupQuery`, `operatorNode`, `dateRangeQuery`). -/
inductive QueryNode : Type where
  | field : QueryField → Str → QueryNode
  | group : List QueryNode → QueryNode
  | opNode : QueryOperator → QueryNode
  | dateRange : QueryField → ArxivDate → ArxivDate → QueryNode

mutual

/-- The `encode()` methods of the four node types in `query.go`. -/
def encodeNode : QueryNode → Str
  | .field f v => fieldName f ++ ':' :: v
  | .group ns => '(' :: (joinSpace (encodeList ns) ++ [')'])
  | .opNode o => opName o
  | .dateRange f s e =>
      fieldName f ++ ':' :: '[' :: (encodeDate s ++ sepTO ++ encodeDate e ++ [']'])

/-- Encodings of a list of nodes, in order. -/
def encodeList : List QueryNode → List Str
  | [] => []
  | n :: ns => encodeNode n :: encodeList ns

end

/-- `SearchQuery` of `query.go`: an ordered sequence of nodes. -/
structure SearchQuery : Type where
  nodes : List QueryNode

/-- `NewSearchQuery()`. -/
def NewSearchQuery : SearchQuery := ⟨[]⟩

/-- `SearchQuery.String()`: encode each node and join with single spaces. -/
def SearchQuery.String (q : SearchQuery) : Str :=
  joinSpace (encodeList q.nodes)

/-- `SearchQuery.Title`. -/
def SearchQuery.Title (q : SearchQuery) (v : Str) : SearchQuery :=
  ⟨q.nodes ++ [.field .fieldTitle v]⟩

/-- `SearchQuery.Abstract`. -/
def SearchQuery.Abstract (q : SearchQuery) (v : Str) : SearchQuery :=
  ⟨q.nodes ++ [.field .fieldAbstract v]⟩

/-- `SearchQuery.Author`. -/
def SearchQuery.Author (q : SearchQuery) (v : Str) : SearchQuery :=
  ⟨q.nodes ++ [.field .fieldAuthor v]⟩

/-- `SearchQuery.Category`. -/
def SearchQuery.Category (q : SearchQuery) (v : Str) : SearchQuery :=
  ⟨q.nodes ++ [.field .fieldCategory v]⟩

/-- `SearchQuery.Comment`. -/
def SearchQuery.Comment (q : SearchQuery) (v : Str) : SearchQuery :=
  ⟨q.nodes ++ [.field .fieldComment v]⟩

/-- `SearchQuery.Journal`. -/
def SearchQuery.Journal (q : SearchQuery) (v : Str) : SearchQuery :=
  ⟨q.nodes ++ [.field .fieldJournal v]⟩

/-- `SearchQuery.All`. -/
def SearchQuery.All (q : SearchQuery) (v : Str) : SearchQuery :=
  ⟨q.nodes ++ [.field .fieldAll v]⟩

/-- `SearchQuery.And()`: appends an AND operator unless the query is empty. -/
def SearchQuery.And (q : SearchQuery) : SearchQuery :=
  if q.nodes.length > 0 then ⟨q.nodes ++ [.opNode .opAnd]⟩ else q

/-- `SearchQuery.Or()`. -/
def SearchQuery.Or (q : SearchQuery) : SearchQuery :=
  if q.nodes.length > 0 then ⟨q.nodes ++ [.opNode .opOr]⟩ else q

/-- `SearchQuery.AndNot()`. -/
def SearchQuery.AndNot (q : SearchQuery) : SearchQuery :=
  if q.nodes.length > 0 then ⟨q.nodes ++ [.opNode .opAndNot]⟩ else q

/-- `SearchQuery.Group(fn)`: run the sub-builder from a fresh query and append
a group node when the sub-query is non-empty. The sub-builder is passed here
as the resulting sub-query. -/
def SearchQuery.Group (q : SearchQuery) (g : SearchQuery) : SearchQuery :=
  if g.nodes.length > 0 then ⟨q.nodes ++ [.group g.nodes]⟩ else q

/-- `SearchQuery.SubmittedBetween`: when the query is non-empty an AND
operator is appended first, then the date-range node. -/
def SearchQuery.SubmittedBetween (q : SearchQuery) (s e : ArxivDate) : SearchQuery :=
  let q1 : SearchQuery :=
    if q.nodes.length > 0 then ⟨q.nodes ++ [.opNode .opAnd]⟩ else q
  ⟨q1.nodes ++ [.dateRange .fieldSubmittedDate s e]⟩

/-- Characters that continue a word in `getNextWord`: anything but a space
or parenthesis. -/
def wordChar (c : Char) : Bool := c ≠ ' ' ∧ c ≠ '(' ∧ c ≠ ')'

/-- `getNextWord(s, i)` of `query.go`, applied to the remainder of the input:
skip leading spaces, then take characters up to a space or parenthesis. -/
def getNextWord (s : Str) : Str :=
  (s.dropWhile (· = ' ')).takeWhile wordChar

/-- `isOperator` of `query.go`: case-insensitive match against the three
operator keywords. -/
def isOperator (w : Str) : Bool :=
  asciiUpper w = "AND".toList ∨ asciiUpper w = "OR".toList ∨
    asciiUpper w = "ANDNOT".toList

/-- The character-at-a-time loop of `tokenizeQuery`, with the string still to
process, the current token buffer, and the three state variables `inParens`,
`inBrackets`, `inFieldValue`. -/
def tokenizeAux : Str → Str → Int → Bool → Bool → List Str
  | [], current, _, _, _ => if current.isEmpty then [] else [current]
  | c :: rest, current, inParens, inBrackets, inFieldValue =>
    if c = '(' then
      if current.isEmpty then tokenizeAux rest [] (inParens + 1) inBrackets inFieldValue
      else current :: tokenizeAux rest [] (inParens + 1) inBrackets inFieldValue
    else if c = ')' then
      if current.isEmpty then tokenizeAux rest [] (inParens - 1) inBrackets inFieldValue
      else current :: tokenizeAux rest [] (inParens - 1) inBrackets inFieldValue
    else if c = '[' then
      tokenizeAux rest (current ++ [c]) inParens true inFieldValue
    else if c = ']' then
      tokenizeAux rest (current ++ [c]) inParens false inFieldValue
    else if c = ':' then
      tokenizeAux rest (current ++ [c]) inParens inBrackets
        (if ¬inBrackets ∧ ¬inFieldValue then true else inFieldValue)
    else if c = ' ' then
      if inParens > 0 ∨ inBrackets then
        tokenizeAux rest (current ++ [c]) inParens inBrackets inFieldValue
      else if inFieldValue then
        let nextWord := getNextWord rest
        if isOperator nextWord then
          if current.isEmpty then tokenizeAux rest [] inParens inBrackets false
          else current :: tokenizeAux rest [] inParens inBrackets false
        else if ':' ∈ nextWord then
          if current.isEmpty then tokenizeAux rest [] inParens inBrackets false
          else current :: tokenizeAux rest [] inParens inBrackets false
        else
          tokenizeAux rest (current ++ [c]) inParens inBrackets inFieldValue
      else if current.isEmpty then
        tokenizeAux rest [] inParens inBrackets inFieldValue
      else
        current :: tokenizeAux rest [] inParens inBrackets inFieldValue
    else
      tokenizeAux rest (current ++ [c]) inParens inBrackets inFieldValue

/-- `tokenizeQuery` of `query.go`. -/
def tokenizeQuery (s : Str) : List Str := tokenizeAux s [] 0 false false

/-- Parse errors reported by `ParseSearchQuery` (each constructor is one
`fmt.Errorf` site). -/
inductive ParseErr : Type where
  | invalidURLEncoding : ParseErr
  | unknownField : Str → ParseErr
  | invalidDateFormat : Str → ParseErr
  | invalidDateRangeFormat : Str → ParseErr
deriving DecidableEq, Repr

/-- Hexadecimal digit test (Go `net/url` `ishex`). -/
def isHexDigit (c : Char) : Bool :=
  ('0' ≤ c ∧ c ≤ '9') ∨ ('a' ≤ c ∧ c ≤ 'f') ∨ ('A' ≤ c ∧ c ≤ 'F')

/-- Hexadecimal digit value (Go `net/url` `unhex`). -/
def hexVal (c : Char) : Nat :=
  if '0' ≤ c ∧ c ≤ '9' then c.toNat - '0'.toNat
  else if 'a' ≤ c ∧ c ≤ 'f' then c.toNat - 'a'.toNat + 10
  else c.toNat - 'A'.toNat + 10

/-- Go `url.QueryUnescape`: decode `%XX` escapes (failing on malformed ones)
and turn `+` into a space. -/
def queryUnescape : Str → Option Str
  | [] => some []
  | c :: rest =>
    if c = '%' then
      match rest with
      | a :: b :: rest2 =>
          if isHexDigit a ∧ isHexDigit b then
            (queryUnescape rest2).map (Char.ofNat (16 * hexVal a + hexVal b) :: ·)
          else none
      | _ => none
    else if c = '+' then (queryUnescape rest).map (' ' :: ·)
    else (queryUnescape rest).map (c :: ·)

/-- Go `strings.SplitN(token, ":", 2)` for a token containing a colon: the
part before the first colon and the part after it. -/
def splitFirstColon : Str → Str × Str
  | [] => ([], [])
  | c :: rest =>
    if c = ':' then ([], rest)
    else
      let p := splitFirstColon rest
      (c :: p.1, p.2)

/-- Square-bracket test for `strings.Trim(value, "[]")`. -/
def bracketChar (c : Char) : Bool := c = '[' ∨ c = ']'

/-- Go `strings.Trim(value, "[]")`: remove all leading and trailing square
brackets. -/
def trimSquare (s : Str) : Str :=
  ((s.dropWhile bracketChar).reverse.dropWhile bracketChar).reverse

/-- Go `strings.Split(dateStr, " TO ")`: split on every (leftmost,
non-overlapping) occurrence of the four-character separator. -/
def splitTO : Str → List Str
  | [] => [[]]
  | c :: rest =>
    if c = ' ' ∧ rest.take 3 = "TO ".toList then [] :: splitTO (rest.drop 3)
    else
      match splitTO rest with
      | [] => [[c]]
      | p :: ps => (c :: p) :: ps
termination_by s => s.length
decreasing_by
  · simp only [List.length_cons, List.length_drop]
    omega
  · simp only [List.length_cons]
    omega

/-- Decimal digit test used by fixed-format timestamp parsing. -/
def isDigitChar (c : Char) : Bool := '0' ≤ c ∧ c ≤ '9'

/-- Numeric value of a string of decimal digits. -/
def digitsVal (s : Str) : Nat :=
  s.foldl (fun acc c => 10 * acc + (c.toNat - '0'.toNat)) 0

/-- Number of days in a month, with the Gregorian leap-year rule, as enforced
by Go `time.Parse` when validating the day component. -/
def daysInMonth (year month : Nat) : Nat :=
  if month = 2 then
    if year % 4 = 0 ∧ (year % 100 ≠ 0 ∨ year % 400 = 0) then 29 else 28
  else if month = 4 ∨ month = 6 ∨ month = 9 ∨ month = 11 then 30
  else 31

/-- `parseArxivDate` of `query.go`: requires exactly 12 characters, slices
them into year/month/day/hour/minute, and parses via `time.Parse`, which
demands decimal digits and in-range calendar components. -/
def parseArxivDate (s : Str) : Option ArxivDate :=
  if s.length = 12 ∧ s.all isDigitChar then
    let y := digitsVal (s.take 4)
    let mo := digitsVal ((s.drop 4).take 2)
    let d := digitsVal ((s.drop 6).take 2)
    let h := digitsVal ((s.drop 8).take 2)
    let mi := digitsVal ((s.drop 10).take 2)
    if 1 ≤ mo ∧ mo ≤ 12 ∧ 1 ≤ d ∧ d ≤ daysInMonth y mo ∧ h ≤ 23 ∧ mi ≤ 59 then
      some ⟨y, mo, d, h, mi⟩
    else none
  else none

/-- The token-classification loop of `ParseSearchQuery`, carrying the
previous token (`tokens[i-1]`; `none` when `i = 0`) and the query built so
far. Tokens that are neither operators nor contain a colon fall through the
`switch` silently, as do `submittedDate` tokens whose value is not wrapped in
square brackets. -/
def parseTokens : Option Str → List Str → SearchQuery → Except ParseErr SearchQuery
  | _, [], q => .ok q
  | prev, token :: rest, q =>
    if asciiUpper token = "AND".toList then parseTokens (some token) rest q.And
    else if asciiUpper token = "OR".toList then parseTokens (some token) rest q.Or
    else if asciiUpper token = "ANDNOT".toList then
      parseTokens (some token) rest q.AndNot
    else if ':' ∈ token then
      let fv := splitFirstColon token
      match queryUnescape fv.2 with
      | none => .error .invalidURLEncoding
      | some value =>
        if fv.1 = "ti".toList then parseTokens (some token) rest (q.Title value)
        else if fv.1 = "abs".toList then parseTokens (some token) rest (q.Abstract value)
        else if fv.1 = "au".toList then parseTokens (some token) rest (q.Author value)
        else if fv.1 = "cat".toList then parseTokens (some token) rest (q.Category value)
        else if fv.1 = "co".toList then parseTokens (some token) rest (q.Comment value)
        else if fv.1 = "jr".toList then parseTokens (some token) rest (q.Journal value)
        else if fv.1 = "all".toList then parseTokens (some token) rest (q.All value)
        else if fv.1 = "submittedDate".toList then
          if value.take 1 = ['['] ∧ value.getLast? = some ']' then
            match splitTO (trimSquare value) with
            | [p1, p2] =>
              match parseArxivDate p1, parseArxivDate p2 with
              | some ds, some de =>
                let q1 := match prev with
                  | some p => if ¬isOperator p then q.And else q
                  | none => q
                parseTokens (some token) rest
                  ⟨q1.nodes ++ [.dateRange .fieldSubmittedDate ds de]⟩
              | _, _ => .error (.invalidDateFormat value)
            | _ => .error (.invalidDateRangeFormat value)
          else parseTokens (some token) rest q
        else .error (.unknownField fv.1)
    else parseTokens (some token) rest q

/-- `ParseSearchQuery` of `query.go`. -/
def ParseSearchQuery (s : Str) : Except ParseErr SearchQuery :=
  if s.isEmpty then .ok ⟨[]⟩
  else parseTokens none (tokenizeQuery s) ⟨[]⟩

/-- `IsValidSearchQuery` of `query.go`. -/
def IsValidSearchQuery (s : Str) : Bool :=
  match ParseSearchQuery s with
  | .ok _ => true
  | .error _ => false

/-- Errors surfaced by the client pipeline. `custom` stands for arbitrary
errors produced by interceptors or the transport. -/
inductive GoError : Type where
  | validationMaxResults : GoError
  | validationStart : GoError
  | deadlineExceeded : GoError
  | urlTemporary : GoError
  | urlOther : GoError
  | noMoreResults : GoError
  | decodeError : GoError
  | custom : Str → GoError
deriving DecidableEq, Repr

/-- `SortBy` / `SortOrder` are string types in Go; `SearchParams` mirrors the
struct of `arxiv.go`. Go `int` fields are modelled as `Int`. -/
structure SearchParams : Type where
  Query : Str := []
  IdList : List Str := []
  Start : Int := 0
  MaxResults : Int := 0
  SortBy : Str := []
  SortOrder : Str := []
deriving DecidableEq, Repr

/-- `SearchParams.Validate`. -/
def SearchParams.Validate (p : SearchParams) : Option GoError :=
  if p.MaxResults > 2000 then some .validationMaxResults
  else if p.Start > 30000 then some .validationStart
  else none

/-- `Link` of `arxiv.go`. -/
structure Link : Type where
  Href : Str := []
  Rel : Str := []
  «Type» : Str := []
  Title : Str := []
deriving DecidableEq, Repr

/-- `Author` of `arxiv.go`. -/
structure Author : Type where
  Name : Str := []
  Affiliation : Str := []
deriving DecidableEq, Repr

/-- `Category` of `arxiv.go`. -/
structure Category : Type where
  Term : Str := []
deriving DecidableEq, Repr

/-- `EntryMetadata` of `arxiv.go`; time stamps at minute precision. -/
structure EntryMetadata : Type where
  Title : Str := []
  ID : Str := []
  Published : ArxivDate := ⟨0, 0, 0, 0, 0⟩
  Updated : ArxivDate := ⟨0, 0, 0, 0, 0⟩
  Summary : Str := []
  Authors : List Author := []
  Categories : List Category := []
  PrimaryCategory : Category := {}
  Links : List Link := []
  Comment : Str := []
  JournalReference : Str := []
  DOI : Str := []
deriving DecidableEq, Repr

/-- `SearchResults` of `arxiv.go` (the parsed response page). -/
structure SearchResults : Type where
  Links : List Link := []
  Title : Str := []
  ID : Str := []
  Updated : Str := []
  TotalResults : Int := 0
  StartIndex : Int := 0
  ItemsPerPage : Int := 0
  Entries : List EntryMetadata := []
  Params : SearchParams := {}
deriving DecidableEq, Repr

/-- An HTTP response, reduced to the status code, the only part the retry
loop inspects. -/
structure HttpResponse : Type where
  statusCode : Int
deriving DecidableEq, Repr

/-- `RetryConfig` of `arxiv.go`. Durations are Go `time.Duration`
(nanosecond `int64`); the multiplier is a `float64`, modelled as an exact
rational so the backoff arithmetic stays executable. -/
structure RetryConfig : Type where
  MaxAttempts : Int
  InitialInterval : Int
  MaxInterval : Int
  Multiplier : ℚ
deriving DecidableEq, Repr

/-- `isRetryableError` of `arxiv.go`: deadline or temporary URL errors are
retryable, as is any response with status 429, 408, 500, 502, 503 or 504. -/
def isRetryableError (err : Option GoError) (response : Option HttpResponse) : Bool :=
  (match err with
   | some .deadlineExceeded => true
   | some .urlTemporary => true
   | _ => false) ||
  (match response with
   | some r =>
       r.statusCode = 429 ∨ r.statusCode = 408 ∨ r.statusCode = 500 ∨
         r.statusCode = 502 ∨ r.statusCode = 503 ∨ r.statusCode = 504
   | none => false)

/-- `calculateBackoff` of `arxiv.go`, over exact rational arithmetic instead
of `float64`, with the value of `rand.Float64()` (in `[0,1)`) passed
explicitly as `r`. The final truncation to whole nanoseconds is not
modelled. -/
def calculateBackoff (attempt : Int) (config : Option RetryConfig)
    (r : ℚ) : ℚ :=
  match config with
  | none => 0
  | some cfg =>
    if attempt ≤ 0 then 0
    else
      let backoff : ℚ := (cfg.InitialInterval : ℚ) * cfg.Multiplier ^ (attempt - 1).toNat
      let capped : ℚ := if backoff > (cfg.MaxInterval : ℚ) then (cfg.MaxInterval : ℚ) else backoff
      capped + 0.1 * capped * (2 * r - 1)

/-- Go `err == nil && response != nil && response.StatusCode == 200` on the
outcome of one attempt. -/
def isOKOutcome (out : Option GoError × Option HttpResponse) : Bool :=
  out.1 = none &&
    (match out.2 with
     | some r => r.statusCode = 200
     | none => false)

/-- The attempt loop of `RawSearch`: `attempt` counts from 1, `fuel` is the
number of loop iterations still allowed (`maxAttempts - attempt + 1`), and
`last` carries `lastErr`/`lastResponse`. The transport is the outcome of
each physical attempt; the rate limiter and the backoff sleep always
complete without cancellation in this model. Returns the result together
with the number of physical attempts performed. -/
def rawSearchLoop (transport : Nat → Option GoError × Option HttpResponse)
    (maxAttempts : Int) :
    Nat → Nat → Option GoError × Option HttpResponse →
    (Option HttpResponse × Option GoError) × Nat
  | _, 0, last => ((last.2, last.1), 0)
  | attempt, fuel + 1, _ =>
    let out := transport attempt
    if isOKOutcome out then
      ((out.2, none), 1)
    else if (attempt : Int) < maxAttempts ∧ isRetryableError out.1 out.2 then
      let rec_ := rawSearchLoop transport maxAttempts (attempt + 1) fuel out
      (rec_.1, rec_.2 + 1)
    else
      ((out.2, out.1), 1)

/-- `RawSearch` of `arxiv.go`: validate the parameters, derive the maximum
number of attempts from the retry configuration, and run the attempt loop. -/
def RawSearch (retryConfig : Option RetryConfig)
    (transport : Nat → Option GoError × Option HttpResponse)
    (params : SearchParams) : (Option HttpResponse × Option GoError) × Nat :=
  match params.Validate with
  | some e => ((none, some e), 0)
  | none =>
    let maxAttempts : Int :=
      match retryConfig with
      | some cfg => if cfg.MaxAttempts > 0 then cfg.MaxAttempts else 1
      | none => 1
    rawSearchLoop transport maxAttempts 1 maxAttempts.toNat (none, none)

/-- `context.Context`, reduced to a token (cancellation never fires in this
model). -/
structure Ctx : Type where
  mk ::
deriving DecidableEq, Repr

/-- `SearchFunc` of `arxiv.go`. -/
abbrev SearchFunc : Type := Ctx → SearchParams → SearchResults × Option GoError

/-- `Interceptor` of `arxiv.go`. -/
abbrev Interceptor : Type := Ctx → SearchParams → SearchFunc → SearchResults × Option GoError

/-- The chain-building loop of `Client.Search`: starting from `doSearch`,
iterate over the interceptor list from the last index down to 0, each step
capturing the previous composed function as `next`. -/
def buildInterceptorChain (interceptors : List Interceptor) (doSearch : SearchFunc) :
    SearchFunc :=
  interceptors.reverse.foldl
    (fun searchFunc interceptor => fun ctx p => interceptor ctx p searchFunc)
    doSearch

/-- A client, reduced to the fields `Search` reads: the registered
interceptor list and the core `doSearch` operation (retry loop plus response
decoding, abstracted as one function). -/
structure ClientSem : Type where
  interceptors : List Interceptor
  doSearch : SearchFunc

/-- `Client.Search` of `arxiv.go`: build the interceptor chain and execute
it once. -/
def ClientSem.Search (c : ClientSem) (ctx : Ctx) (params : SearchParams) :
    SearchResults × Option GoError :=
  buildInterceptorChain c.interceptors c.doSearch ctx params

/-- Nested-composition reading of the interceptor chain, following the
spec: the first-registered interceptor is applied with the composition of
the remaining interceptors around the core as its continuation. -/
def interceptorNest : List Interceptor → SearchFunc → SearchFunc
  | [], core => core
  | i :: rest, core => fun ctx p => i ctx p (interceptorNest rest core)

/-- `SearchHasMoreResults` of `arxiv.go`. -/
def SearchHasMoreResults (response : SearchResults) : Bool :=
  response.TotalResults > 0 ∧
    response.StartIndex + response.ItemsPerPage < response.TotalResults

/-- `SearchHasPreviousResults` of `arxiv.go`. -/
def SearchHasPreviousResults (response : SearchResults) : Bool :=
  response.TotalResults > 0 ∧ response.StartIndex > 0

/-- `Client.SearchNext` of `arxiv.go`, with the client's `Search` method
abstracted as `search` (the context plays no role in the cursor logic). -/
def SearchNext (search : SearchParams → SearchResults × Option GoError)
    (response : SearchResults) : SearchResults × Option GoError :=
  if ¬SearchHasMoreResults response then ({}, some .noMoreResults)
  else
    search { response.Params with Start := response.StartIndex + response.ItemsPerPage }

/-- `Client.SearchPrevious` of `arxiv.go`: move the start back one page and
clamp at zero. -/
def SearchPrevious (search : SearchParams → SearchResults × Option GoError)
    (response : SearchResults) : SearchResults × Option GoError :=
  if ¬SearchHasPreviousResults response then ({}, some .noMoreResults)
  else
    let start := response.StartIndex - response.ItemsPerPage
    search { response.Params with Start := if start < 0 then 0 else start }

/-- Characters that play no structural role in the wire grammar: anything
except parentheses, square brackets, colons and spaces. -/
def charPlainB (c : Char) : Bool :=
  c ≠ '(' ∧ c ≠ ')' ∧ c ≠ '[' ∧ c ≠ ']' ∧ c ≠ ':' ∧ c ≠ ' '

/-- Internal-word condition for a field value: after every space inside the
value, the next whitespace-delimited word must not be an operator keyword
(otherwise the tokenizer's lookahead terminates the value early). -/
def goodWords : Str → Bool
  | [] => true
  | c :: rest =>
      (if c = ' ' then !isOperator (getNextWord rest) else true) && goodWords rest

/-- A field value that round-trips: no structural characters apart from
spaces, no percent or plus (which `url.QueryUnescape` would rewrite), no
trailing space, and no operator keyword starting an internal word. -/
def goodValue (v : Str) : Bool :=
  v.all (fun c => charPlainB c ∨ c = ' ') && v.all (fun c => c ≠ '%' ∧ c ≠ '+') &&
    v.getLast? ≠ some ' ' && goodWords v

/-- Dates whose 12-digit rendering parses back: four-digit year and
components in the ranges `time.Parse` accepts. -/
def validDate (d : ArxivDate) : Bool :=
  d.year ≤ 9999 ∧ 1 ≤ d.month ∧ d.month ≤ 12 ∧ 1 ≤ d.day ∧
    d.day ≤ daysInMonth d.year d.month ∧ d.hour ≤ 23 ∧ d.minute ≤ 59

/-- Whether a node is an operator node. -/
def isOpNode : QueryNode → Bool
  | .opNode _ => true
  | _ => false

/-- Per-node condition for the round-trip class: field terms over the seven
plain fields with good values, operators, and valid `submittedDate` ranges;
no groups. -/
def nodeOK : QueryNode → Bool
  | .field f v => (f ≠ QueryField.fieldSubmittedDate) && goodValue v
  | .opNode _ => true
  | .dateRange f s e => f = QueryField.fieldSubmittedDate && validDate s && validDate e
  | .group _ => false

/-- Structural side conditions along a node list: an operator never comes
first, and a date range is first or directly preceded by an operator (the
shapes the builder produces). `prev` is the node before the list. -/
def wfAux : Option QueryNode → List QueryNode → Bool
  | _, [] => true
  | prev, n :: rest =>
    nodeOK n &&
    (match n, prev with
     | .opNode _, none => false
     | .dateRange _ _ _, some p => isOpNode p
     | _, _ => true) &&
    wfAux (some n) rest

/-- Round-trip class of node lists. -/
def wfNodes (ns : List QueryNode) : Bool := wfAux none ns

/-- One builder call on a `SearchQuery` (the fluent methods of `query.go`);
a `group` call carries the calls made on the sub-builder. -/
inductive BuilderOp : Type where
  | title : Str → BuilderOp
  | abstract : Str → BuilderOp
  | author : Str → BuilderOp
  | category : Str → BuilderOp
  | comment : Str → BuilderOp
  | journal : Str → BuilderOp
  | allField : Str → BuilderOp
  | andOp : BuilderOp
  | orOp : BuilderOp
  | andNotOp : BuilderOp
  | group : List BuilderOp → BuilderOp
  | submittedBetween : ArxivDate → ArxivDate → BuilderOp

mutual

/-- Apply one builder call. -/
def applyBuilderOp (q : SearchQuery) : BuilderOp → SearchQuery
  | .title v => q.Title v
  | .abstract v => q.Abstract v
  | .author v => q.Author v
  | .category v => q.Category v
  | .comment v => q.Comment v
  | .journal v => q.Journal v
  | .allField v => q.All v
  | .andOp => q.And
  | .orOp => q.Or
  | .andNotOp => q.AndNot
  | .group ops => q.Group (runBuilder NewSearchQuery ops)
  | .submittedBetween s e => q.SubmittedBetween s e

/-- Run a sequence of builder calls. -/
def runBuilder (q : SearchQuery) : List BuilderOp → SearchQuery
  | [] => q
  | op :: ops => runBuilder (applyBuilderOp q op) ops

end

/-- Builder calls in the round-trip class: good values, valid dates, no
groups. -/
def goodOp : BuilderOp → Bool
  | .title v => goodValue v
  | .abstract v => goodValue v
  | .author v => goodValue v
  | .category v => goodValue v
  | .comment v => goodValue v
  | .journal v => goodValue v
  | .allField v => goodValue v
  | .andOp => true
  | .orOp => true
  | .andNotOp => true
  | .group _ => false
  | .submittedBetween s e => validDate s && validDate e

/-- A builder program in the round-trip class. -/
def goodOps (ops : List BuilderOp) : Bool := ops.all goodOp

/-- Whether a string begins with one of the three operator keywords. -/
def startsWithOpKeyword (s : Str) : Bool :=
  s.take 3 = "AND".toList ∨ s.take 2 = "OR".toList ∨ s.take 6 = "ANDNOT".toList

/-- Known field names of the parser's dispatch. -/
def knownField (f : Str) : Bool :=
  f = "ti".toList ∨ f = "abs".toList ∨ f = "au".toList ∨ f = "cat".toList ∨
    f = "co".toList ∨ f = "jr".toList ∨ f = "all".toList ∨
    f = "submittedDate".toList

theorem takeWhile_append_stop {p : Char → Bool} {y : Char} (hy : p y = false) :
    ∀ (xs ys : Str), (xs ++ y :: ys).takeWhile p = xs.takeWhile p := by
  intro xs ys
  induction xs with
  | nil => simp [List.takeWhile_cons, hy]
  | cons c cs ih =>
    simp only [List.cons_append, List.takeWhile_cons]
    cases hc : p c with
    | false => simp
    | true => simp [ih]

theorem takeWhile_append_all {p : Char → Bool} :
    ∀ (xs ys : Str), (∀ c ∈ xs, p c = true) →
      (xs ++ ys).takeWhile p = xs ++ ys.takeWhile p := by
  intro xs ys h
  induction xs with
  | nil => simp
  | cons c cs ih =>
    have hc : p c = true := h c (by simp)
    simp only [List.cons_append, List.takeWhile_cons, hc, if_true]
    rw [ih (fun x hx => h x (by simp [hx]))]

theorem dropWhile_append_keep {p : Char → Bool} :
    ∀ (xs ys : Str), (∃ c ∈ xs, p c = false) →
      (xs ++ ys).dropWhile p = xs.dropWhile p ++ ys := by
  intro xs ys h
  induction xs with
  | nil => obtain ⟨c, hc, _⟩ := h; simp at hc
  | cons c cs ih =>
    simp only [List.cons_append, List.dropWhile_cons]
    cases hc : p c with
    | false => simp
    | true =>
      simp only [if_true]
      apply ih
      obtain ⟨d, hd, hdp⟩ := h
      rcases List.mem_cons.1 hd with rfl | hd2
      · rw [hc] at hdp; cases hdp
      · exact ⟨d, hd2, hdp⟩

theorem mem_of_mem_takeWhile {p : Char → Bool} :
    ∀ {xs : Str} {c : Char}, c ∈ xs.takeWhile p → c ∈ xs := by
  intro xs
  induction xs with
  | nil => intro c h; simp at h
  | cons x xs ih =>
    intro c h
    rw [List.takeWhile_cons] at h
    by_cases hx : p x = true
    · rw [if_pos hx] at h
      rcases List.mem_cons.1 h with rfl | h2
      · simp
      · exact List.mem_cons_of_mem _ (ih h2)
    · rw [if_neg hx] at h; simp at h

theorem mem_of_mem_dropWhile {p : Char → Bool} :
    ∀ {xs : Str} {c : Char}, c ∈ xs.dropWhile p → c ∈ xs := by
  intro xs
  induction xs with
  | nil => intro c h; simp at h
  | cons x xs ih =>
    intro c h
    rw [List.dropWhile_cons] at h
    by_cases hx : p x = true
    · rw [if_pos hx] at h
      exact List.mem_cons_of_mem _ (ih h)
    · rw [if_neg hx] at h; exact h

theorem any_ne_space_of_getLast {l : Str} (h0 : l ≠ []) (h : l.getLast? ≠ some ' ') :
    ∃ c ∈ l, (c = ' ') = False := by
  induction l with
  | nil => cases h0 rfl
  | cons c cs ih =>
    rcases eq_or_ne cs [] with rfl | hcs
    · refine ⟨c, by simp, ?_⟩
      simp only [List.getLast?_singleton] at h
      simp only [eq_iff_iff, iff_false]
      intro hc
      exact h (by rw [hc])
    · obtain ⟨d, ds, rfl⟩ := List.exists_cons_of_ne_nil hcs
      obtain ⟨e, he, hep⟩ := ih hcs (by
        rwa [List.getLast?_cons_cons] at h)
      exact ⟨e, by simp [he], hep⟩

theorem getNextWord_append {v r : Str} (hv : ∃ c ∈ v, (c = ' ') = False)
    (hr : r = [] ∨ ∃ r2, r = ' ' :: r2) :
    getNextWord (v ++ r) = getNextWord v := by
  unfold getNextWord
  have hdrop : (v ++ r).dropWhile (fun c => c = ' ') = v.dropWhile (fun c => c = ' ') ++ r := by
    apply dropWhile_append_keep
    obtain ⟨c, hc, hcp⟩ := hv
    exact ⟨c, hc, by simp [hcp]⟩
  rw [hdrop]
  rcases hr with rfl | ⟨r2, rfl⟩
  · simp
  · exact takeWhile_append_stop (by simp [wordChar]) _ _

theorem tokenizeAux_plain {c : Char} (h : charPlainB c = true)
    (rest cur : Str) (p : Int) (b f : Bool) :
    tokenizeAux (c :: rest) cur p b f = tokenizeAux rest (cur ++ [c]) p b f := by
  simp only [charPlainB, Bool.and_eq_true, decide_eq_true_eq] at h
  obtain ⟨h1, h2, h3, h4, h5, h6⟩ := h
  simp only [tokenizeAux]
  rw [if_neg h1, if_neg h2, if_neg h3, if_neg h4, if_neg h5, if_neg h6]

theorem tokenizeAux_colon_start (rest cur : Str) (p : Int) :
    tokenizeAux (':' :: rest) cur p false false =
      tokenizeAux rest (cur ++ [':']) p false true := by
  simp only [tokenizeAux]
  simp

theorem tokenizeAux_open_bracket (rest cur : Str) (p : Int) (b f : Bool) :
    tokenizeAux ('[' :: rest) cur p b f = tokenizeAux rest (cur ++ ['[']) p true f := by
  simp only [tokenizeAux]
  simp

theorem tokenizeAux_close_bracket (rest cur : Str) (p : Int) (b f : Bool) :
    tokenizeAux (']' :: rest) cur p b f = tokenizeAux rest (cur ++ [']']) p false f := by
  simp only [tokenizeAux]
  simp

theorem tokenizeAux_space_in_bracket (rest cur : Str) (p : Int) (f : Bool) :
    tokenizeAux (' ' :: rest) cur p true f = tokenizeAux rest (cur ++ [' ']) p true f := by
  simp only [tokenizeAux]
  simp

theorem tokenizeAux_space_value_continue (rest cur : Str)
    (h1 : isOperator (getNextWord rest) = false) (h2 : ':' ∉ getNextWord rest) :
    tokenizeAux (' ' :: rest) cur 0 false true =
      tokenizeAux rest (cur ++ [' ']) 0 false true := by
  simp only [tokenizeAux]
  simp [h1, h2]

theorem tokenizeAux_space_value_flush (rest cur : Str) (hcur : cur ≠ [])
    (h : isOperator (getNextWord rest) = true ∨ ':' ∈ getNextWord rest) :
    tokenizeAux (' ' :: rest) cur 0 false true =
      cur :: tokenizeAux rest [] 0 false false := by
  simp only [tokenizeAux]
  by_cases hop : isOperator (getNextWord rest) = true
  · simp [hop, hcur]
  · have hcol : ':' ∈ getNextWord rest := h.resolve_left hop
    simp [hop, hcol, hcur]

theorem tokenizeAux_space_flush (rest cur : Str) (hcur : cur ≠ []) :
    tokenizeAux (' ' :: rest) cur 0 false false =
      cur :: tokenizeAux rest [] 0 false false := by
  simp only [tokenizeAux]
  simp [hcur]

theorem tokenizeAux_flush_end (cur : Str) (hcur : cur ≠ []) (p : Int) (b f : Bool) :
    tokenizeAux [] cur p b f = [cur] := by
  simp only [tokenizeAux]
  simp [hcur]

theorem consume_plain : ∀ (w rest cur : Str) (b f : Bool),
    (∀ c ∈ w, charPlainB c = true) →
    tokenizeAux (w ++ rest) cur 0 b f = tokenizeAux rest (cur ++ w) 0 b f := by
  intro w
  induction w with
  | nil => intro rest cur b f _; simp
  | cons c cs ih =>
    intro rest cur b f h
    rw [List.cons_append, tokenizeAux_plain (h c (by simp)),
      ih rest (cur ++ [c]) b f (fun x hx => h x (by simp [hx]))]
    simp

theorem goodWords_tail {c : Char} {cs : Str} (h : goodWords (c :: cs) = true) :
    goodWords cs = true := by
  simp only [goodWords, Bool.and_eq_true] at h
  exact h.2

theorem getLast?_tail {c : Char} {cs : Str} (hcs : cs ≠ [])
    (h : (c :: cs).getLast? ≠ some ' ') : cs.getLast? ≠ some ' ' := by
  obtain ⟨d, ds, rfl⟩ := List.exists_cons_of_ne_nil hcs
  rwa [List.getLast?_cons_cons] at h

theorem consume_value : ∀ (v r cur : Str),
    (∀ c ∈ v, charPlainB c = true ∨ c = ' ') →
    v.getLast? ≠ some ' ' →
    goodWords v = true →
    (r = [] ∨ ∃ r2, r = ' ' :: r2) →
    tokenizeAux (v ++ r) cur 0 false true = tokenizeAux r (cur ++ v) 0 false true := by
  intro v
  induction v with
  | nil => intro r cur _ _ _ _; simp
  | cons c cs ih =>
    intro r cur hall hlast hw hr
    rcases hall c (by simp) with hc | hc
    · rw [List.cons_append, tokenizeAux_plain hc,
        ih r (cur ++ [c]) (fun x hx => hall x (by simp [hx]))
          (by
            rcases eq_or_ne cs [] with rfl | hcs
            · simp
            · exact getLast?_tail hcs hlast)
          (goodWords_tail hw) hr]
      simp
    · subst hc
      have hcs : cs ≠ [] := by
        rintro rfl
        simp at hlast
      have hlast2 : cs.getLast? ≠ some ' ' := getLast?_tail hcs hlast
      have hany : ∃ x ∈ cs, (x = ' ') = False := any_ne_space_of_getLast hcs hlast2
      have hgw : getNextWord (cs ++ r) = getNextWord cs := getNextWord_append hany hr
      have hop : isOperator (getNextWord cs) = false := by
        simp only [goodWords, Bool.and_eq_true] at hw
        have := hw.1
        simpa using this
      have hcol : ':' ∉ getNextWord cs := by
        intro hmem
        have h1 : ':' ∈ cs := mem_of_mem_dropWhile (mem_of_mem_takeWhile hmem)
        rcases hall ':' (by simp [h1]) with h2 | h2
        · exact absurd h2 (by decide)
        · exact absurd h2 (by decide)
      rw [List.cons_append,
        tokenizeAux_space_value_continue _ _ (by rw [hgw]; exact hop)
          (by rw [hgw]; exact hcol),
        ih r (cur ++ [' ']) (fun x hx => hall x (by simp [hx])) hlast2
          (goodWords_tail hw) hr]
      simp

theorem consume_bracket : ∀ (w rest cur : Str) (f : Bool),
    (∀ c ∈ w, c ≠ '(' ∧ c ≠ ')' ∧ c ≠ '[' ∧ c ≠ ']' ∧ c ≠ ':') →
    tokenizeAux (w ++ rest) cur 0 true f = tokenizeAux rest (cur ++ w) 0 true f := by
  intro w
  induction w with
  | nil => intro rest cur f _; simp
  | cons c cs ih =>
    intro rest cur f h
    by_cases hsp : c = ' '
    · subst hsp
      rw [List.cons_append, tokenizeAux_space_in_bracket,
        ih rest (cur ++ [' ']) f (fun x hx => h x (by simp [hx]))]
      simp
    · have hc : charPlainB c = true := by
        obtain ⟨h1, h2, h3, h4, h5⟩ := h c (by simp)
        simp [charPlainB, h1, h2, h3, h4, h5, hsp]
      rw [List.cons_append, tokenizeAux_plain hc,
        ih rest (cur ++ [c]) f (fun x hx => h x (by simp [hx]))]
      simp

theorem opName_plain (o : QueryOperator) : ∀ c ∈ opName o, charPlainB c = true := by
  cases o <;> decide

theorem opName_ne_nil (o : QueryOperator) : opName o ≠ [] := by
  cases o <;> decide

theorem isOperator_opName (o : QueryOperator) : isOperator (opName o) = true := by
  cases o <;> decide

theorem fieldName_plain (f : QueryField) : ∀ c ∈ fieldName f, charPlainB c = true := by
  cases f <;> decide

theorem fieldName_word (f : QueryField) : ∀ c ∈ fieldName f, wordChar c = true := by
  cases f <;> decide

theorem digitChar_isDigit (n : Nat) : isDigitChar (digitChar n) = true := by
  unfold digitChar
  split <;> decide

theorem pad4_digits (n : Nat) : ∀ c ∈ pad4 n, isDigitChar c = true := by
  intro c hc
  simp only [pad4, List.mem_cons, List.not_mem_nil, or_false] at hc
  rcases hc with rfl | rfl | rfl | rfl <;> exact digitChar_isDigit _

theorem pad2_digits (n : Nat) : ∀ c ∈ pad2 n, isDigitChar c = true := by
  intro c hc
  simp only [pad2, List.mem_cons, List.not_mem_nil, or_false] at hc
  rcases hc with rfl | rfl <;> exact digitChar_isDigit _

theorem encodeDate_digits (d : ArxivDate) : ∀ c ∈ encodeDate d, isDigitChar c = true := by
  intro c hc
  simp only [encodeDate, List.mem_append] at hc
  rcases hc with (((hc | hc) | hc) | hc) | hc
  · exact pad4_digits _ _ hc
  · exact pad2_digits _ _ hc
  · exact pad2_digits _ _ hc
  · exact pad2_digits _ _ hc
  · exact pad2_digits _ _ hc

theorem digit_not_special {c : Char} (h : isDigitChar c = true) :
    c ≠ '(' ∧ c ≠ ')' ∧ c ≠ '[' ∧ c ≠ ']' ∧ c ≠ ':' ∧ c ≠ ' ' ∧ c ≠ '%' ∧ c ≠ '+' := by
  refine ⟨?_, ?_, ?_, ?_, ?_, ?_, ?_, ?_⟩ <;>
    (rintro rfl; exact absurd h (by decide))

theorem getNextWord_no_space_head {c : Char} (hc : ¬(c = ' ')) (l : Str) :
    getNextWord (c :: l) = (c :: l).takeWhile wordChar := by
  unfold getNextWord
  rw [List.dropWhile_cons, if_neg (by simp [hc])]

theorem takeWhile_opName (o : QueryOperator) (X : Str)
    (hX : X = [] ∨ ∃ y, X = ' ' :: y) :
    (opName o ++ X).takeWhile wordChar = opName o := by
  rcases hX with rfl | ⟨y, rfl⟩
  · rw [List.append_nil]
    cases o <;> decide
  · rw [takeWhile_append_stop (by decide)]
    cases o <;> decide

theorem colon_in_getNextWord (f : QueryField) (REST X : Str) :
    ':' ∈ getNextWord ((fieldName f ++ ':' :: REST) ++ X) := by
  obtain ⟨c0, l0, he, hc0⟩ : ∃ c0 l0, fieldName f = c0 :: l0 ∧ ¬(c0 = ' ') := by
    cases f <;> exact ⟨_, _, rfl, by decide⟩
  rw [List.append_assoc, he, List.cons_append,
    getNextWord_no_space_head hc0, ← List.cons_append, ← he,
    takeWhile_append_all _ _ (fieldName_word f), List.cons_append, List.takeWhile_cons,
    if_pos (by decide)]
  exact List.mem_append_right _ (by simp)

theorem getNextWord_opName (o : QueryOperator) (X : Str)
    (hX : X = [] ∨ ∃ y, X = ' ' :: y) :
    getNextWord (opName o ++ X) = opName o := by
  obtain ⟨c0, l0, he, hc0⟩ : ∃ c0 l0, opName o = c0 :: l0 ∧ ¬(c0 = ' ') := by
    cases o <;> exact ⟨_, _, rfl, by decide⟩
  rw [he, List.cons_append, getNextWord_no_space_head hc0, ← List.cons_append, ← he,
    takeWhile_opName o X hX]

theorem boundary_head (m : QueryNode) (ms : List QueryNode) (hm : nodeOK m = true) :
    isOperator (getNextWord (joinSpace (encodeList (m :: ms)))) = true ∨
      ':' ∈ getNextWord (joinSpace (encodeList (m :: ms))) := by
  obtain ⟨X, hX, hXs⟩ : ∃ X, joinSpace (encodeList (m :: ms)) = encodeNode m ++ X ∧
      (X = [] ∨ ∃ y, X = ' ' :: y) := by
    cases ms with
    | nil => exact ⟨[], by simp [encodeList, joinSpace], Or.inl rfl⟩
    | cons m2 ms2 =>
      exact ⟨' ' :: joinSpace (encodeList (m2 :: ms2)),
        by simp [encodeList, joinSpace], Or.inr ⟨_, rfl⟩⟩
  rw [hX]
  cases m with
  | field f v =>
    right
    show ':' ∈ getNextWord ((fieldName f ++ ':' :: v) ++ X)
    exact colon_in_getNextWord f v X
  | group gs => simp [nodeOK] at hm
  | opNode o =>
    left
    show isOperator (getNextWord (opName o ++ X)) = true
    rw [getNextWord_opName o X hXs]
    exact isOperator_opName o
  | dateRange f s e =>
    right
    exact colon_in_getNextWord f _ X

theorem encodeNode_ne_nil (n : QueryNode) : encodeNode n ≠ [] := by
  cases n with
  | field f v =>
    show fieldName f ++ ':' :: v ≠ []
    simp
  | group gs => simp [encodeNode]
  | opNode o => exact opName_ne_nil o
  | dateRange f s e =>
    show fieldName f ++ ':' :: _ ≠ []
    simp

theorem consume_token (n : QueryNode) (hn : nodeOK n = true) (r : Str)
    (hr : r = [] ∨ ∃ r2, r = ' ' :: r2 ∧
      (isOperator (getNextWord r2) = true ∨ ':' ∈ getNextWord r2)) :
    tokenizeAux (encodeNode n ++ r) [] 0 false false =
      encodeNode n :: tokenizeAux r.tail [] 0 false false := by
  have hrshape : r = [] ∨ ∃ r2, r = ' ' :: r2 := by
    rcases hr with rfl | ⟨r2, rfl, _⟩
    · exact Or.inl rfl
    · exact Or.inr ⟨r2, rfl⟩
  cases n with
  | opNode o =>
    rw [show encodeNode (.opNode o) = opName o from rfl,
      consume_plain _ _ _ _ _ (opName_plain o), List.nil_append]
    rcases hr with rfl | ⟨r2, rfl, hb⟩
    · rw [tokenizeAux_flush_end _ (opName_ne_nil o)]
      simp [tokenizeAux]
    · rw [tokenizeAux_space_flush _ _ (opName_ne_nil o)]
      rfl
  | group gs => simp [nodeOK] at hn
  | field f v =>
    simp only [nodeOK, Bool.and_eq_true] at hn
    have hgv := hn.2
    simp only [goodValue, Bool.and_eq_true, List.all_eq_true] at hgv
    have hall : ∀ c ∈ v, charPlainB c = true ∨ c = ' ' := by
      intro c hc
      have := hgv.1.1.1 c hc
      simpa using this
    have hlast : v.getLast? ≠ some ' ' := by
      have := hgv.1.2
      simpa using this
    have hw : goodWords v = true := hgv.2
    show tokenizeAux ((fieldName f ++ ':' :: v) ++ r) [] 0 false false = _
    rw [List.append_assoc, List.cons_append,
      consume_plain _ _ _ _ _ (fieldName_plain f), List.nil_append,
      tokenizeAux_colon_start, consume_value v r _ hall hlast hw hrshape]
    rcases hr with rfl | ⟨r2, rfl, hb⟩
    · rw [tokenizeAux_flush_end _ (by simp)]
      simp [tokenizeAux, encodeNode]
    · rw [tokenizeAux_space_value_flush _ _ (by simp) hb]
      simp [encodeNode]
  | dateRange f s e =>
    simp only [nodeOK, Bool.and_eq_true] at hn
    have hbody : ∀ c ∈ encodeDate s ++ (sepTO ++ encodeDate e),
        c ≠ '(' ∧ c ≠ ')' ∧ c ≠ '[' ∧ c ≠ ']' ∧ c ≠ ':' := by
      intro c hc
      simp only [List.mem_append] at hc
      rcases hc with hc | hc | hc
      · have := digit_not_special (encodeDate_digits s c hc)
        exact ⟨this.1, this.2.1, this.2.2.1, this.2.2.2.1, this.2.2.2.2.1⟩
      · revert c
        decide
      · have := digit_not_special (encodeDate_digits e c hc)
        exact ⟨this.1, this.2.1, this.2.2.1, this.2.2.2.1, this.2.2.2.2.1⟩
    show tokenizeAux ((fieldName f ++ ':' :: '[' ::
      (encodeDate s ++ sepTO ++ encodeDate e ++ [']'])) ++ r) [] 0 false false = _
    have hre : (fieldName f ++ ':' :: '[' ::
        (encodeDate s ++ sepTO ++ encodeDate e ++ [']'])) ++ r =
        fieldName f ++ ':' :: '[' ::
          ((encodeDate s ++ (sepTO ++ encodeDate e)) ++ (']' :: r)) := by
      simp
    rw [hre, consume_plain _ _ _ _ _ (fieldName_plain f), List.nil_append,
      tokenizeAux_colon_start, tokenizeAux_open_bracket,
      consume_bracket _ _ _ _ hbody, tokenizeAux_close_bracket]
    rcases hr with rfl | ⟨r2, rfl, hb⟩
    · rw [tokenizeAux_flush_end _ (by simp)]
      simp [tokenizeAux, sepTO, encodeNode]
    · rw [tokenizeAux_space_value_flush _ _ (by simp) hb]
      simp [sepTO, encodeNode]

theorem tokenize_encodeList : ∀ (ns : List QueryNode),
    (∀ n ∈ ns, nodeOK n = true) → ns ≠ [] →
    tokenizeAux (joinSpace (encodeList ns)) [] 0 false false = encodeList ns := by
  intro ns
  induction ns with
  | nil => intro _ h; cases h rfl
  | cons n ms ih =>
    intro hall _
    cases ms with
    | nil =>
      have h1 := consume_token n (hall n (by simp)) [] (Or.inl rfl)
      rw [List.append_nil] at h1
      show tokenizeAux (encodeNode n) [] 0 false false = _
      rw [h1]
      simp [tokenizeAux, encodeList]
    | cons m ms2 =>
      have hb := boundary_head m ms2 (hall m (by simp))
      have h1 := consume_token n (hall n (by simp))
        (' ' :: joinSpace (encodeList (m :: ms2)))
        (Or.inr ⟨_, rfl, hb⟩)
      show tokenizeAux (joinSpace (encodeNode n :: encodeList (m :: ms2))) [] 0 false false = _
      have hj : joinSpace (encodeNode n :: encodeList (m :: ms2)) =
          encodeNode n ++ ' ' :: joinSpace (encodeList (m :: ms2)) := by
        show joinSpace (encodeNode n :: encodeNode m :: encodeList ms2) = _
        rfl
      rw [hj, h1]
      simp only [List.tail_cons]
      show _ = encodeNode n :: encodeList (m :: ms2)
      rw [ih (fun x hx => hall x (by simp [hx])) (by simp)]

theorem asciiUpper_colon_mem {t : Str} (h : ':' ∈ t) : ':' ∈ asciiUpper t := by
  have he : asciiUpperChar ':' = ':' := by decide
  exact he ▸ List.mem_map_of_mem asciiUpperChar h

theorem not_kw_of_colon {t : Str} (h : ':' ∈ t) :
    ¬asciiUpper t = "AND".toList ∧ ¬asciiUpper t = "OR".toList ∧
      ¬asciiUpper t = "ANDNOT".toList := by
  have hm := asciiUpper_colon_mem h
  refine ⟨?_, ?_, ?_⟩ <;> (intro he; rw [he] at hm; revert hm; decide)

theorem isOperator_false_of_colon {t : Str} (h : ':' ∈ t) : isOperator t = false := by
  obtain ⟨h1, h2, h3⟩ := not_kw_of_colon h
  simp only [isOperator]
  simp at h1 h2 h3 ⊢
  exact ⟨h1, h2, h3⟩

theorem splitFirstColon_append {xs ys : Str} (h : ∀ c ∈ xs, c ≠ ':') :
    splitFirstColon (xs ++ ':' :: ys) = (xs, ys) := by
  induction xs with
  | nil => simp [splitFirstColon]
  | cons c cs ih =>
    rw [List.cons_append]
    show splitFirstColon (c :: (cs ++ ':' :: ys)) = _
    rw [splitFirstColon, if_neg (h c (by simp)), ih (fun x hx => h x (by simp [hx]))]

theorem queryUnescape_cons {c : Char} (cs : Str) (h1 : c ≠ '%') (h2 : c ≠ '+') :
    queryUnescape (c :: cs) = (queryUnescape cs).map (c :: ·) := by
  cases cs with
  | nil => simp [queryUnescape, h1, h2]
  | cons a tl =>
    cases tl with
    | nil => simp [queryUnescape, h1, h2]
    | cons b tl2 => simp [queryUnescape, h1, h2]

theorem queryUnescape_id {v : Str} (h : ∀ c ∈ v, c ≠ '%' ∧ c ≠ '+') :
    queryUnescape v = some v := by
  induction v with
  | nil => rfl
  | cons c cs ih =>
    obtain ⟨h1, h2⟩ := h c (by simp)
    rw [queryUnescape_cons cs h1 h2, ih (fun x hx => h x (by simp [hx]))]
    rfl

theorem trimSquare_wrap {xs : Str} (h : ∀ c ∈ xs, c ≠ '[' ∧ c ≠ ']') :
    trimSquare ('[' :: (xs ++ [']'])) = xs := by
  unfold trimSquare
  rw [List.dropWhile_cons, if_pos (by decide)]
  cases xs with
  | nil => decide
  | cons c cs =>
    obtain ⟨hc1, hc2⟩ := h c (by simp)
    rw [List.cons_append, List.dropWhile_cons,
      if_neg (by simp [bracketChar, hc1, hc2])]
    have hrev : ((c :: cs) ++ [']']).reverse = ']' :: (c :: cs).reverse := by simp
    rw [show (c :: (cs ++ [']'])) = ((c :: cs) ++ [']']) by simp, hrev,
      List.dropWhile_cons, if_pos (by decide)]
    obtain ⟨d, ds, hds⟩ := List.exists_cons_of_ne_nil
      (l := (c :: cs).reverse) (by simp)
    have hdm : d ∈ c :: cs := by
      have hd2 : d ∈ (c :: cs).reverse := by rw [hds]; simp
      rwa [List.mem_reverse] at hd2
    obtain ⟨hd1, hd2⟩ := h d hdm
    rw [hds, List.dropWhile_cons, if_neg (by simp [bracketChar, hd1, hd2]), ← hds]
    simp

theorem splitTO_no_sep {w : Str} (h : ∀ c ∈ w, c ≠ ' ') : splitTO w = [w] := by
  induction w with
  | nil => simp [splitTO]
  | cons c cs ih =>
    rw [splitTO, if_neg (by simp [h c (by simp)]), ih (fun x hx => h x (by simp [hx]))]

theorem splitTO_pair {d1 d2 : Str} (h1 : ∀ c ∈ d1, c ≠ ' ') (h2 : ∀ c ∈ d2, c ≠ ' ') :
    splitTO (d1 ++ sepTO ++ d2) = [d1, d2] := by
  induction d1 with
  | nil =>
    show splitTO (' ' :: ('T' :: 'O' :: ' ' :: d2)) = _
    rw [splitTO, if_pos ⟨rfl, rfl⟩]
    show [] :: splitTO d2 = _
    rw [splitTO_no_sep h2]
  | cons c cs ih =>
    show splitTO (c :: (cs ++ sepTO ++ d2)) = _
    rw [splitTO, if_neg (by simp [h1 c (by simp)]),
      ih (fun x hx => h1 x (by simp [hx]))]

theorem digitChar_val {k : Nat} (h : k < 10) : (digitChar k).toNat - '0'.toNat = k := by
  interval_cases k <;> decide

theorem digitsVal_pad4 {n : Nat} (h : n ≤ 9999) : digitsVal (pad4 n) = n := by
  simp only [pad4, digitsVal, List.foldl]
  rw [digitChar_val (by omega), digitChar_val (by omega), digitChar_val (by omega),
    digitChar_val (by omega)]
  omega

theorem digitsVal_pad2 {n : Nat} (h : n ≤ 99) : digitsVal (pad2 n) = n := by
  simp only [pad2, digitsVal, List.foldl]
  rw [digitChar_val (by omega), digitChar_val (by omega)]
  omega

theorem parse_encodeDate {d : ArxivDate} (h : validDate d = true) :
    parseArxivDate (encodeDate d) = some d := by
  obtain ⟨y, mo, da, ho, mi⟩ := d
  simp only [validDate, Bool.and_eq_true, decide_eq_true_eq] at h
  obtain ⟨hy, hmo1, hmo2, hda1, hda2, hho, hmi⟩ := h
  have hlen : (encodeDate ⟨y, mo, da, ho, mi⟩).length = 12 := by
    simp [encodeDate, pad4, pad2]
  have hdig : (encodeDate ⟨y, mo, da, ho, mi⟩).all isDigitChar = true := by
    rw [List.all_eq_true]
    exact fun c hc => encodeDate_digits _ c hc
  unfold parseArxivDate
  rw [if_pos ⟨hlen, hdig⟩]
  have e1 : (encodeDate ⟨y, mo, da, ho, mi⟩).take 4 = pad4 y := by
    show ((pad4 y ++ pad2 mo ++ pad2 da ++ pad2 ho) ++ pad2 mi).take 4 = _
    simp [pad4, pad2]
  have e2 : ((encodeDate ⟨y, mo, da, ho, mi⟩).drop 4).take 2 = pad2 mo := by
    show (((pad4 y ++ pad2 mo ++ pad2 da ++ pad2 ho) ++ pad2 mi).drop 4).take 2 = _
    simp [pad4, pad2]
  have e3 : ((encodeDate ⟨y, mo, da, ho, mi⟩).drop 6).take 2 = pad2 da := by
    show (((pad4 y ++ pad2 mo ++ pad2 da ++ pad2 ho) ++ pad2 mi).drop 6).take 2 = _
    simp [pad4, pad2]
  have e4 : ((encodeDate ⟨y, mo, da, ho, mi⟩).drop 8).take 2 = pad2 ho := by
    show (((pad4 y ++ pad2 mo ++ pad2 da ++ pad2 ho) ++ pad2 mi).drop 8).take 2 = _
    simp [pad4, pad2]
  have e5 : ((encodeDate ⟨y, mo, da, ho, mi⟩).drop 10).take 2 = pad2 mi := by
    show (((pad4 y ++ pad2 mo ++ pad2 da ++ pad2 ho) ++ pad2 mi).drop 10).take 2 = _
    simp [pad4, pad2]
  have hdm31 : daysInMonth y mo ≤ 31 := by
    unfold daysInMonth
    split
    · split <;> omega
    · split <;> omega
  rw [e1, e2, e3, e4, e5, digitsVal_pad4 hy, digitsVal_pad2 (by omega),
    digitsVal_pad2 (by omega), digitsVal_pad2 (by omega), digitsVal_pad2 (by omega)]
  rw [if_pos ⟨hmo1, hmo2, hda1, hda2, hho, hmi⟩]

theorem isOperator_encodeNode_false {p : QueryNode} (hp : nodeOK p = true)
    (hnop : isOpNode p = false) : isOperator (encodeNode p) = false := by
  cases p with
  | field f v =>
    exact isOperator_false_of_colon
      (show ':' ∈ fieldName f ++ ':' :: v from List.mem_append_right _ (by simp))
  | group gs => simp [nodeOK] at hp
  | opNode o => simp [isOpNode] at hnop
  | dateRange f s e =>
    exact isOperator_false_of_colon
      (show ':' ∈ fieldName f ++ ':' :: _ from List.mem_append_right _ (by simp))

theorem parseTokens_cons (prev : Option Str) (token : Str) (rest : List Str)
    (q : SearchQuery) :
    parseTokens prev (token :: rest) q =
      (if asciiUpper token = "AND".toList then parseTokens (some token) rest q.And
      else if asciiUpper token = "OR".toList then parseTokens (some token) rest q.Or
      else if asciiUpper token = "ANDNOT".toList then
        parseTokens (some token) rest q.AndNot
      else if ':' ∈ token then
        let fv := splitFirstColon token
        match queryUnescape fv.2 with
        | none => .error .invalidURLEncoding
        | some value =>
          if fv.1 = "ti".toList then parseTokens (some token) rest (q.Title value)
          else if fv.1 = "abs".toList then parseTokens (some token) rest (q.Abstract value)
          else if fv.1 = "au".toList then parseTokens (some token) rest (q.Author value)
          else if fv.1 = "cat".toList then parseTokens (some token) rest (q.Category value)
          else if fv.1 = "co".toList then parseTokens (some token) rest (q.Comment value)
          else if fv.1 = "jr".toList then parseTokens (some token) rest (q.Journal value)
          else if fv.1 = "all".toList then parseTokens (some token) rest (q.All value)
          else if fv.1 = "submittedDate".toList then
            if value.take 1 = ['['] ∧ value.getLast? = some ']' then
              match splitTO (trimSquare value) with
              | [p1, p2] =>
                match parseArxivDate p1, parseArxivDate p2 with
                | some ds, some de =>
                  let q1 := match prev with
                    | some p => if ¬isOperator p then q.And else q
                    | none => q
                  parseTokens (some token) rest
                    ⟨q1.nodes ++ [.dateRange .fieldSubmittedDate ds de]⟩
                | _, _ => .error (.invalidDateFormat value)
              | _ => .error (.invalidDateRangeFormat value)
            else parseTokens (some token) rest q
          else .error (.unknownField fv.1)
      else parseTokens (some token) rest q) := rfl

theorem parseTokens_nil (prev : Option Str) (q : SearchQuery) :
    parseTokens prev [] q = .ok q := rfl

theorem searchQuery_and_nonempty {done : List QueryNode} (hd : done ≠ []) :
    SearchQuery.And ⟨done⟩ = ⟨done ++ [.opNode .opAnd]⟩ := by
  rw [SearchQuery.And, if_pos]
  exact List.length_pos.2 hd

theorem searchQuery_or_nonempty {done : List QueryNode} (hd : done ≠ []) :
    SearchQuery.Or ⟨done⟩ = ⟨done ++ [.opNode .opOr]⟩ := by
  rw [SearchQuery.Or, if_pos]
  exact List.length_pos.2 hd

theorem searchQuery_andNot_nonempty {done : List QueryNode} (hd : done ≠ []) :
    SearchQuery.AndNot ⟨done⟩ = ⟨done ++ [.opNode .opAndNot]⟩ := by
  rw [SearchQuery.AndNot, if_pos]
  exact List.length_pos.2 hd

theorem parse_step_op (o : QueryOperator) (ts : List Str) (done : List QueryNode)
    (prevTok : Option Str) (hd : done ≠ []) :
    parseTokens prevTok (opName o :: ts) ⟨done⟩ =
      parseTokens (some (opName o)) ts ⟨done ++ [.opNode o]⟩ := by
  cases o with
  | opAnd =>
    rw [parseTokens_cons, if_pos (by decide)]
    rw [searchQuery_and_nonempty hd]
  | opOr =>
    rw [parseTokens_cons, if_neg (by decide), if_pos (by decide)]
    rw [searchQuery_or_nonempty hd]
  | opAndNot =>
    rw [parseTokens_cons, if_neg (by decide), if_neg (by decide), if_pos (by decide)]
    rw [searchQuery_andNot_nonempty hd]

theorem fieldName_no_colon (f : QueryField) : ∀ c ∈ fieldName f, c ≠ ':' := by
  cases f <;> decide

theorem goodValue_no_escape {v : Str} (hgv : goodValue v = true) :
    ∀ c ∈ v, c ≠ '%' ∧ c ≠ '+' := by
  simp only [goodValue, Bool.and_eq_true, List.all_eq_true] at hgv
  intro c hc
  have := hgv.1.1.2 c hc
  simpa using this

theorem parse_step_field (f : QueryField) (v : Str) (hf : f ≠ .fieldSubmittedDate)
    (hgv : goodValue v = true) (ts : List Str) (done : List QueryNode)
    (prevTok : Option Str) :
    parseTokens prevTok ((fieldName f ++ ':' :: v) :: ts) ⟨done⟩ =
      parseTokens (some (fieldName f ++ ':' :: v)) ts ⟨done ++ [.field f v]⟩ := by
  have hcolon : ':' ∈ fieldName f ++ ':' :: v := List.mem_append_right _ (by simp)
  obtain ⟨hk1, hk2, hk3⟩ := not_kw_of_colon hcolon
  have hsp : splitFirstColon (fieldName f ++ ':' :: v) = (fieldName f, v) :=
    splitFirstColon_append (fieldName_no_colon f)
  have hu : queryUnescape v = some v := queryUnescape_id (goodValue_no_escape hgv)
  rw [parseTokens_cons, if_neg hk1, if_neg hk2, if_neg hk3, if_pos hcolon]
  simp only [hsp, hu]
  cases f with
  | fieldTitle =>
    rw [if_pos (by decide)]
    rfl
  | fieldAbstract =>
    rw [if_neg (by decide), if_pos (by decide)]
    rfl
  | fieldAuthor =>
    rw [if_neg (by decide), if_neg (by decide), if_pos (by decide)]
    rfl
  | fieldCategory =>
    rw [if_neg (by decide), if_neg (by decide), if_neg (by decide), if_pos (by decide)]
    rfl
  | fieldComment =>
    rw [if_neg (by decide), if_neg (by decide), if_neg (by decide), if_neg (by decide),
      if_pos (by decide)]
    rfl
  | fieldJournal =>
    rw [if_neg (by decide), if_neg (by decide), if_neg (by decide), if_neg (by decide),
      if_neg (by decide), if_pos (by decide)]
    rfl
  | fieldAll =>
    rw [if_neg (by decide), if_neg (by decide), if_neg (by decide), if_neg (by decide),
      if_neg (by decide), if_neg (by decide), if_pos (by decide)]
    rfl
  | fieldSubmittedDate => exact absurd rfl hf

theorem parse_date_token (s e : ArxivDate) (hs : validDate s = true)
    (he : validDate e = true) (ts : List Str) (q : SearchQuery) (prev : Option Str) :
    parseTokens prev (encodeNode (.dateRange .fieldSubmittedDate s e) :: ts) q =
      parseTokens (some (encodeNode (.dateRange .fieldSubmittedDate s e))) ts
        ⟨(match prev with
          | some p => if ¬isOperator p then q.And else q
          | none => q).nodes ++ [.dateRange .fieldSubmittedDate s e]⟩ := by
  have htok : encodeNode (.dateRange .fieldSubmittedDate s e) =
      fieldName .fieldSubmittedDate ++ ':' ::
        ('[' :: (((encodeDate s ++ sepTO) ++ encodeDate e) ++ [']'])) := by
    show fieldName _ ++ ':' :: '[' :: (encodeDate s ++ sepTO ++ encodeDate e ++ [']']) = _
    simp
  have hcolon : ':' ∈ encodeNode (.dateRange .fieldSubmittedDate s e) := by
    rw [htok]
    exact List.mem_append_right _ (by simp)
  obtain ⟨hk1, hk2, hk3⟩ := not_kw_of_colon hcolon
  have hbodyOK : ∀ c ∈ (encodeDate s ++ sepTO) ++ encodeDate e,
      c ≠ '[' ∧ c ≠ ']' ∧ c ≠ '%' ∧ c ≠ '+' ∧ c ≠ ' ' ∨ c ∈ sepTO := by
    intro c hc
    simp only [List.mem_append] at hc
    rcases hc with (hc | hc) | hc
    · have := digit_not_special (encodeDate_digits s c hc)
      exact Or.inl ⟨this.2.2.1, this.2.2.2.1, this.2.2.2.2.2.2.1, this.2.2.2.2.2.2.2,
        this.2.2.2.2.2.1⟩
    · exact Or.inr hc
    · have := digit_not_special (encodeDate_digits e c hc)
      exact Or.inl ⟨this.2.2.1, this.2.2.2.1, this.2.2.2.2.2.2.1, this.2.2.2.2.2.2.2,
        this.2.2.2.2.2.1⟩
  have hsp : splitFirstColon (encodeNode (.dateRange .fieldSubmittedDate s e)) =
      (fieldName .fieldSubmittedDate,
        '[' :: (((encodeDate s ++ sepTO) ++ encodeDate e) ++ [']'])) := by
    rw [htok]
    exact splitFirstColon_append (fieldName_no_colon _)
  have hu : queryUnescape ('[' :: (((encodeDate s ++ sepTO) ++ encodeDate e) ++ [']'])) =
      some ('[' :: (((encodeDate s ++ sepTO) ++ encodeDate e) ++ [']'])) := by
    apply queryUnescape_id
    intro c hc
    rcases List.mem_cons.1 hc with rfl | hc
    · exact ⟨by decide, by decide⟩
    · rcases List.mem_append.1 hc with hc | hc
      · rcases hbodyOK c hc with h | h
        · exact ⟨h.2.2.1, h.2.2.2.1⟩
        · revert h
          simp only [sepTO, List.mem_cons, List.not_mem_nil, or_false]
          rintro (rfl | rfl | rfl | rfl) <;> exact ⟨by decide, by decide⟩
      · simp only [List.mem_cons, List.not_mem_nil, or_false] at hc
        subst hc
        exact ⟨by decide, by decide⟩
  have htrim : trimSquare ('[' :: (((encodeDate s ++ sepTO) ++ encodeDate e) ++ [']'])) =
      (encodeDate s ++ sepTO) ++ encodeDate e := by
    apply trimSquare_wrap
    intro c hc
    rcases hbodyOK c hc with h | h
    · exact ⟨h.1, h.2.1⟩
    · revert h
      simp only [sepTO, List.mem_cons, List.not_mem_nil, or_false]
      rintro (rfl | rfl | rfl | rfl) <;> exact ⟨by decide, by decide⟩
  have hsplit : splitTO ((encodeDate s ++ sepTO) ++ encodeDate e) =
      [encodeDate s, encodeDate e] := by
    apply splitTO_pair
    · intro c hc
      exact (digit_not_special (encodeDate_digits s c hc)).2.2.2.2.2.1
    · intro c hc
      exact (digit_not_special (encodeDate_digits e c hc)).2.2.2.2.2.1
  have hglast : ('[' :: (((encodeDate s ++ sepTO) ++ encodeDate e) ++ [']'])).getLast? =
      some ']' := by
    rw [show ('[' :: (((encodeDate s ++ sepTO) ++ encodeDate e) ++ [']'])) =
      ('[' :: ((encodeDate s ++ sepTO) ++ encodeDate e)) ++ [']'] by simp]
    exact List.getLast?_concat _
  rw [parseTokens_cons, if_neg hk1, if_neg hk2, if_neg hk3, if_pos hcolon]
  simp only [hsp, hu]
  rw [if_neg (by decide), if_neg (by decide), if_neg (by decide), if_neg (by decide),
    if_neg (by decide), if_neg (by decide), if_neg (by decide), if_pos (by decide),
    if_pos ⟨rfl, hglast⟩]
  simp only [htrim, hsplit, parse_encodeDate hs, parse_encodeDate he]

theorem parse_step_date (s e : ArxivDate) (hs : validDate s = true)
    (he : validDate e = true) (ts : List Str) (done : List QueryNode)
    (prevN : Option QueryNode)
    (hprev : prevN = none ∨ ∃ p, prevN = some p ∧ isOpNode p = true) :
    parseTokens (prevN.map encodeNode)
        (encodeNode (.dateRange .fieldSubmittedDate s e) :: ts) ⟨done⟩ =
      parseTokens (some (encodeNode (.dateRange .fieldSubmittedDate s e))) ts
        ⟨done ++ [.dateRange .fieldSubmittedDate s e]⟩ := by
  rw [parse_date_token s e hs he ts ⟨done⟩ (prevN.map encodeNode)]
  rcases hprev with rfl | ⟨p, rfl, hop⟩
  · rfl
  · obtain ⟨o, rfl⟩ : ∃ o, p = .opNode o := by
      cases p with
      | opNode o => exact ⟨o, rfl⟩
      | field f v => simp [isOpNode] at hop
      | group gs => simp [isOpNode] at hop
      | dateRange f a b => simp [isOpNode] at hop
    simp [encodeNode, isOperator_opName o]

theorem parseTokens_reconstruct :
    ∀ (ns done : List QueryNode) (prevN : Option QueryNode),
    wfAux prevN ns = true →
    (prevN = none → done = []) →
    (prevN ≠ none → done ≠ []) →
    parseTokens (prevN.map encodeNode) (encodeList ns) ⟨done⟩ = .ok ⟨done ++ ns⟩ := by
  intro ns
  induction ns with
  | nil =>
    intro done prevN _ _ _
    show parseTokens _ (encodeList []) ⟨done⟩ = _
    rw [show encodeList [] = ([] : List Str) by simp [encodeList], parseTokens_nil]
    simp
  | cons n ms ih =>
    intro done prevN hwf hpn hps
    simp only [wfAux, Bool.and_eq_true] at hwf
    obtain ⟨⟨hnOK, hstruct⟩, hwf2⟩ := hwf
    have hel : encodeList (n :: ms) = encodeNode n :: encodeList ms := by
      simp [encodeList]
    rw [hel]
    have hdone2 : done ++ [n] ≠ [] := by simp
    have hih := ih (done ++ [n]) (some n) hwf2 (by simp) (fun _ => hdone2)
    cases n with
    | opNode o =>
      have hd : done ≠ [] := by
        apply hps
        cases hpn2 : prevN with
        | none =>
          subst hpn2
          simp at hstruct
        | some p => simp
      rw [show encodeNode (.opNode o) = opName o from rfl,
        parse_step_op o (encodeList ms) done _ hd]
      simpa [encodeNode] using hih
    | field f v =>
      simp only [nodeOK, Bool.and_eq_true, decide_eq_true_eq] at hnOK
      rw [show encodeNode (.field f v) = fieldName f ++ ':' :: v from rfl,
        parse_step_field f v hnOK.1 hnOK.2 (encodeList ms) done _]
      simpa [encodeNode] using hih
    | group gs => simp [nodeOK] at hnOK
    | dateRange f s e =>
      simp only [nodeOK, Bool.and_eq_true, decide_eq_true_eq] at hnOK
      obtain ⟨⟨hf, hvs⟩, hve⟩ := hnOK
      subst hf
      have hprev : prevN = none ∨ ∃ p, prevN = some p ∧ isOpNode p = true := by
        cases hpn2 : prevN with
        | none => exact Or.inl rfl
        | some p =>
          subst hpn2
          exact Or.inr ⟨p, rfl, hstruct⟩
      rw [parse_step_date s e hvs hve (encodeList ms) done prevN hprev]
      simpa using hih

theorem wfAux_all_nodeOK : ∀ (ns : List QueryNode) (prevN : Option QueryNode),
    wfAux prevN ns = true → ∀ n ∈ ns, nodeOK n = true := by
  intro ns
  induction ns with
  | nil => intro prevN _ n hn; simp at hn
  | cons m ms ih =>
    intro prevN hwf n hn
    simp only [wfAux, Bool.and_eq_true] at hwf
    rcases List.mem_cons.1 hn with rfl | hn2
    · exact hwf.1.1
    · exact ih (some m) hwf.2 n hn2

theorem wfAux_snoc : ∀ (ns : List QueryNode) (prevN : Option QueryNode) (y : QueryNode),
    wfAux prevN ns = true → nodeOK y = true →
    (isOpNode y = true → (ns ≠ [] ∨ prevN ≠ none)) →
    ((∃ f a b, y = .dateRange f a b) →
      (match ns.getLast? with
       | some p => isOpNode p = true
       | none =>
         match prevN with
         | some p => isOpNode p = true
         | none => True)) →
    wfAux prevN (ns ++ [y]) = true := by
  intro ns
  induction ns with
  | nil =>
    intro prevN y _ hy hop hdate
    show wfAux prevN [y] = true
    simp only [wfAux, Bool.and_eq_true]
    refine ⟨⟨hy, ?_⟩, trivial⟩
    cases y with
    | field f v => rfl
    | group gs => rfl
    | opNode o =>
      rcases hop rfl with h | h
      · exact absurd rfl h
      · cases hpn : prevN with
        | none => exact absurd hpn h
        | some p => rfl
    | dateRange f a b =>
      have hd := hdate ⟨f, a, b, rfl⟩
      simp only [List.getLast?_nil] at hd
      cases hpn : prevN with
      | none => rfl
      | some p =>
        rw [hpn] at hd
        exact hd
  | cons m ms ih =>
    intro prevN y hwf hy hop hdate
    simp only [List.cons_append, wfAux, Bool.and_eq_true] at hwf ⊢
    refine ⟨hwf.1, ?_⟩
    apply ih (some m) y hwf.2 hy (fun _ => Or.inr (by simp))
    intro hex
    have hd := hdate hex
    cases hms : ms with
    | nil =>
      simp only [hms, List.getLast?_nil]
      rw [hms] at hd
      simpa [List.getLast?_singleton] using hd
    | cons m2 ms2 =>
      rw [hms] at hd
      rwa [List.getLast?_cons_cons] at hd

theorem wfNodes_snoc_field {ns : List QueryNode} {f : QueryField} {v : Str}
    (hwf : wfNodes ns = true) (hf : f ≠ .fieldSubmittedDate) (hv : goodValue v = true) :
    wfNodes (ns ++ [.field f v]) = true := by
  apply wfAux_snoc ns none _ hwf
  · simp [nodeOK, hf, hv]
  · intro h; simp [isOpNode] at h
  · rintro ⟨f2, a, b, h⟩; cases h

theorem wfNodes_snoc_op {ns : List QueryNode} {o : QueryOperator}
    (hwf : wfNodes ns = true) (hne : ns ≠ []) :
    wfNodes (ns ++ [.opNode o]) = true := by
  apply wfAux_snoc ns none _ hwf
  · rfl
  · intro _; exact Or.inl hne
  · rintro ⟨f2, a, b, h⟩; cases h

theorem wfNodes_snoc_date {ns : List QueryNode} {s e : ArxivDate}
    (hwf : wfNodes ns = true) (hs : validDate s = true) (he : validDate e = true)
    (hlast : ns = [] ∨ ∃ p, ns.getLast? = some p ∧ isOpNode p = true) :
    wfNodes (ns ++ [.dateRange .fieldSubmittedDate s e]) = true := by
  apply wfAux_snoc ns none _ hwf
  · simp [nodeOK, hs, he]
  · intro h; simp [isOpNode] at h
  · intro _
    rcases hlast with rfl | ⟨p, hp, hop⟩
    · simp
    · rw [hp]
      exact hop

theorem runBuilder_wf : ∀ (ops : List BuilderOp) (q : SearchQuery),
    goodOps ops = true → wfNodes q.nodes = true →
    wfNodes (runBuilder q ops).nodes = true := by
  intro ops
  induction ops with
  | nil => intro q _ hq; exact hq
  | cons op rest ih =>
    intro q hops hq
    simp only [goodOps, List.all_cons, Bool.and_eq_true] at hops
    obtain ⟨hop, hrest⟩ := hops
    show wfNodes (runBuilder (applyBuilderOp q op) rest).nodes = true
    apply ih (applyBuilderOp q op) hrest
    cases op with
    | title v => exact wfNodes_snoc_field hq (by decide) (by simpa [goodOp] using hop)
    | abstract v => exact wfNodes_snoc_field hq (by decide) (by simpa [goodOp] using hop)
    | author v => exact wfNodes_snoc_field hq (by decide) (by simpa [goodOp] using hop)
    | category v => exact wfNodes_snoc_field hq (by decide) (by simpa [goodOp] using hop)
    | comment v => exact wfNodes_snoc_field hq (by decide) (by simpa [goodOp] using hop)
    | journal v => exact wfNodes_snoc_field hq (by decide) (by simpa [goodOp] using hop)
    | allField v => exact wfNodes_snoc_field hq (by decide) (by simpa [goodOp] using hop)
    | andOp =>
      show wfNodes (SearchQuery.And q).nodes = true
      rw [SearchQuery.And]
      by_cases hb : q.nodes.length > 0
      · rw [if_pos hb]
        exact wfNodes_snoc_op hq (by intro h0; rw [h0] at hb; simp at hb)
      · rw [if_neg hb]; exact hq
    | orOp =>
      show wfNodes (SearchQuery.Or q).nodes = true
      rw [SearchQuery.Or]
      by_cases hb : q.nodes.length > 0
      · rw [if_pos hb]
        exact wfNodes_snoc_op hq (by intro h0; rw [h0] at hb; simp at hb)
      · rw [if_neg hb]; exact hq
    | andNotOp =>
      show wfNodes (SearchQuery.AndNot q).nodes = true
      rw [SearchQuery.AndNot]
      by_cases hb : q.nodes.length > 0
      · rw [if_pos hb]
        exact wfNodes_snoc_op hq (by intro h0; rw [h0] at hb; simp at hb)
      · rw [if_neg hb]; exact hq
    | group ops2 => simp [goodOp] at hop
    | submittedBetween s e =>
      simp only [goodOp, Bool.and_eq_true] at hop
      show wfNodes (SearchQuery.SubmittedBetween q s e).nodes = true
      rw [SearchQuery.SubmittedBetween]
      by_cases hb : q.nodes.length > 0
      · simp only [if_pos hb]
        apply wfNodes_snoc_date (wfNodes_snoc_op hq
          (by intro h0; rw [h0] at hb; simp at hb)) hop.1 hop.2
        exact Or.inr ⟨.opNode .opAnd, List.getLast?_concat _, rfl⟩
      · simp only [if_neg hb]
        exact wfNodes_snoc_date hq hop.1 hop.2 (Or.inl (by
          rcases hq2 : q.nodes with _ | ⟨a, b⟩
          · rfl
          · rw [hq2] at hb; simp at hb))

theorem joinSpace_encodeList_ne_nil {ns : List QueryNode} (h : ns ≠ []) :
    joinSpace (encodeList ns) ≠ [] := by
  obtain ⟨n, ms, rfl⟩ := List.exists_cons_of_ne_nil h
  have hel : encodeList (n :: ms) = encodeNode n :: encodeList ms := by simp [encodeList]
  rw [hel]
  cases hms : encodeList ms with
  | nil =>
    show joinSpace [encodeNode n] ≠ []
    exact encodeNode_ne_nil n
  | cons t ts =>
    show joinSpace (encodeNode n :: t :: ts) ≠ []
    rw [joinSpace]
    intro hc
    exact encodeNode_ne_nil n (List.append_eq_nil.1 hc).1

theorem roundtrip_wfNodes (q : SearchQuery) (hwf : wfNodes q.nodes = true) :
    ParseSearchQuery q.String = .ok q := by
  rcases eq_or_ne q.nodes [] with hnil | hne
  · have hs : q.String = [] := by
      rw [SearchQuery.String, hnil]
      simp [encodeList, joinSpace]
    rw [hs]
    show Except.ok ⟨[]⟩ = Except.ok q
    obtain ⟨ns⟩ := q
    simp only at hnil
    rw [hnil]
  · have hall : ∀ n ∈ q.nodes, nodeOK n = true := wfAux_all_nodeOK q.nodes none hwf
    have htok : tokenizeQuery q.String = encodeList q.nodes :=
      tokenize_encodeList q.nodes hall hne
    have hparse := parseTokens_reconstruct q.nodes [] none hwf (fun _ => rfl)
      (fun hc => absurd rfl hc)
    have hnonempty : ¬q.String.isEmpty = true := by
      rw [SearchQuery.String]
      simp [List.isEmpty_iff, joinSpace_encodeList_ne_nil hne]
    rw [ParseSearchQuery, if_neg hnonempty, htok]
    simpa using hparse

theorem tokenize_single_plain (w : Str) (hw : ∀ c ∈ w, charPlainB c = true)
    (hne : w ≠ []) : tokenizeQuery w = [w] := by
  show tokenizeAux w [] 0 false false = _
  have h1 := consume_plain w [] [] false false hw
  simp only [List.append_nil, List.nil_append] at h1
  rw [h1, tokenizeAux_flush_end _ hne]

theorem tokenize_single_field (f v : Str) (hf : ∀ c ∈ f, charPlainB c = true)
    (hv : ∀ c ∈ v, charPlainB c = true) :
    tokenizeQuery (f ++ ':' :: v) = [f ++ ':' :: v] := by
  show tokenizeAux (f ++ ':' :: v) [] 0 false false = _
  rw [consume_plain f (':' :: v) [] false false hf, List.nil_append,
    tokenizeAux_colon_start]
  have h2 := consume_plain v [] (f ++ [':']) false true hv
  rw [List.append_nil] at h2
  rw [h2, tokenizeAux_flush_end _ (by simp)]
  simp

theorem head_of_append_single {l : List QueryNode} {y n : QueryNode} {t : List QueryNode}
    (h : l ++ [y] = n :: t) : (l = [] ∧ y = n) ∨ ∃ t2, l = n :: t2 := by
  cases l with
  | nil =>
    simp only [List.nil_append, List.cons.injEq] at h
    exact Or.inl ⟨rfl, h.1⟩
  | cons a l2 =>
    simp only [List.cons_append, List.cons.injEq] at h
    exact Or.inr ⟨l2, by rw [h.1]⟩

theorem runBuilder_head_not_op : ∀ (ops : List BuilderOp) (q : SearchQuery),
    (∀ n t, q.nodes = n :: t → isOpNode n = false) →
    ∀ n t, (runBuilder q ops).nodes = n :: t → isOpNode n = false := by
  intro ops
  induction ops with
  | nil => exact fun q h => h
  | cons op rest ih =>
    intro q hq
    show ∀ n t, (runBuilder (applyBuilderOp q op) rest).nodes = n :: t → _
    apply ih
    intro n t ha
    cases op with
    | title v =>
      rcases head_of_append_single ha with ⟨_, rfl⟩ | ⟨t2, h2⟩
      · rfl
      · exact hq n t2 h2
    | abstract v =>
      rcases head_of_append_single ha with ⟨_, rfl⟩ | ⟨t2, h2⟩
      · rfl
      · exact hq n t2 h2
    | author v =>
      rcases head_of_append_single ha with ⟨_, rfl⟩ | ⟨t2, h2⟩
      · rfl
      · exact hq n t2 h2
    | category v =>
      rcases head_of_append_single ha with ⟨_, rfl⟩ | ⟨t2, h2⟩
      · rfl
      · exact hq n t2 h2
    | comment v =>
      rcases head_of_append_single ha with ⟨_, rfl⟩ | ⟨t2, h2⟩
      · rfl
      · exact hq n t2 h2
    | journal v =>
      rcases head_of_append_single ha with ⟨_, rfl⟩ | ⟨t2, h2⟩
      · rfl
      · exact hq n t2 h2
    | allField v =>
      rcases head_of_append_single ha with ⟨_, rfl⟩ | ⟨t2, h2⟩
      · rfl
      · exact hq n t2 h2
    | andOp =>
      revert ha
      show (SearchQuery.And q).nodes = n :: t → _
      rw [SearchQuery.And]
      by_cases hb : q.nodes.length > 0
      · rw [if_pos hb]
        intro ha
        rcases head_of_append_single ha with ⟨h0, _⟩ | ⟨t2, h2⟩
        · rw [h0] at hb; simp at hb
        · exact hq n t2 h2
      · rw [if_neg hb]
        exact hq n t
    | orOp =>
      revert ha
      show (SearchQuery.Or q).nodes = n :: t → _
      rw [SearchQuery.Or]
      by_cases hb : q.nodes.length > 0
      · rw [if_pos hb]
        intro ha
        rcases head_of_append_single ha with ⟨h0, _⟩ | ⟨t2, h2⟩
        · rw [h0] at hb; simp at hb
        · exact hq n t2 h2
      · rw [if_neg hb]
        exact hq n t
    | andNotOp =>
      revert ha
      show (SearchQuery.AndNot q).nodes = n :: t → _
      rw [SearchQuery.AndNot]
      by_cases hb : q.nodes.length > 0
      · rw [if_pos hb]
        intro ha
        rcases head_of_append_single ha with ⟨h0, _⟩ | ⟨t2, h2⟩
        · rw [h0] at hb; simp at hb
        · exact hq n t2 h2
      · rw [if_neg hb]
        exact hq n t
    | group ops2 =>
      revert ha
      show (SearchQuery.Group q (runBuilder NewSearchQuery ops2)).nodes = n :: t → _
      rw [SearchQuery.Group]
      by_cases hb : (runBuilder NewSearchQuery ops2).nodes.length > 0
      · rw [if_pos hb]
        intro ha
        rcases head_of_append_single ha with ⟨_, rfl⟩ | ⟨t2, h2⟩
        · rfl
        · exact hq n t2 h2
      · rw [if_neg hb]
        exact hq n t
    | submittedBetween s e =>
      revert ha
      show (SearchQuery.SubmittedBetween q s e).nodes = n :: t → _
      rw [SearchQuery.SubmittedBetween]
      by_cases hb : q.nodes.length > 0
      · simp only [if_pos hb]
        intro ha
        rcases head_of_append_single ha with ⟨h0, _⟩ | ⟨t2, h2⟩
        · exact absurd h0 (by simp)
        · rcases head_of_append_single h2 with ⟨h0, _⟩ | ⟨t3, h3⟩
          · rw [h0] at hb; simp at hb
          · exact hq n t3 h3
      · simp only [if_neg hb]
        intro ha
        rcases head_of_append_single ha with ⟨_, rfl⟩ | ⟨t2, h2⟩
        · rfl
        · exact hq n t2 h2

theorem startsWithOpKeyword_cons {c : Char} {l : Str} (h1 : c ≠ 'A') (h2 : c ≠ 'O') :
    startsWithOpKeyword (c :: l) = false := by
  simp only [startsWithOpKeyword, Bool.decide_or, Bool.or_eq_false_iff,
    decide_eq_false_iff_not]
  refine ⟨?_, ?_, ?_⟩ <;> intro he
  · rw [show (3 : Nat) = 2 + 1 from rfl, List.take_succ_cons,
      show "AND".toList = 'A' :: "ND".toList from rfl] at he
    injection he with hc _
    exact h1 hc
  · rw [show (2 : Nat) = 1 + 1 from rfl, List.take_succ_cons,
      show "OR".toList = 'O' :: "R".toList from rfl] at he
    injection he with hc _
    exact h2 hc
  · rw [show (6 : Nat) = 5 + 1 from rfl, List.take_succ_cons,
      show "ANDNOT".toList = 'A' :: "NDNOT".toList from rfl] at he
    injection he with hc _
    exact h1 hc

theorem encodeNode_head_not_AO (n : QueryNode) (hop : isOpNode n = false) :
    ∃ c0 l0, encodeNode n = c0 :: l0 ∧ c0 ≠ 'A' ∧ c0 ≠ 'O' := by
  cases n with
  | field f v =>
    obtain ⟨c0, l0, he, h1, h2⟩ : ∃ c0 l0, fieldName f = c0 :: l0 ∧ c0 ≠ 'A' ∧ c0 ≠ 'O' := by
      cases f <;> exact ⟨_, _, rfl, by decide, by decide⟩
    exact ⟨c0, l0 ++ ':' :: v, by rw [show encodeNode (.field f v) =
      fieldName f ++ ':' :: v from rfl, he]; rfl, h1, h2⟩
  | group gs =>
    exact ⟨'(', _, rfl, by decide, by decide⟩
  | opNode o => simp [isOpNode] at hop
  | dateRange f s e =>
    obtain ⟨c0, l0, he, h1, h2⟩ : ∃ c0 l0, fieldName f = c0 :: l0 ∧ c0 ≠ 'A' ∧ c0 ≠ 'O' := by
      cases f <;> exact ⟨_, _, rfl, by decide, by decide⟩
    refine ⟨c0, l0 ++ ':' :: '[' :: (encodeDate s ++ sepTO ++ encodeDate e ++ [']']), ?_, h1, h2⟩
    rw [show encodeNode (.dateRange f s e) =
      fieldName f ++ ':' :: '[' :: (encodeDate s ++ sepTO ++ encodeDate e ++ [']']) from rfl, he]
    rfl

theorem startsWithOp_false_of_head (q : SearchQuery)
    (hhead : ∀ n t, q.nodes = n :: t → isOpNode n = false) :
    startsWithOpKeyword q.String = false := by
  cases hq : q.nodes with
  | nil =>
    rw [SearchQuery.String, hq]
    rfl
  | cons n ms =>
    have hop := hhead n ms hq
    obtain ⟨c0, l0, he, h1, h2⟩ := encodeNode_head_not_AO n hop
    rw [SearchQuery.String, hq]
    have hel : encodeList (n :: ms) = encodeNode n :: encodeList ms := by simp [encodeList]
    rw [hel]
    cases hms : encodeList ms with
    | nil =>
      show startsWithOpKeyword (joinSpace [encodeNode n]) = false
      rw [show joinSpace [encodeNode n] = encodeNode n from rfl, he]
      exact startsWithOpKeyword_cons h1 h2
    | cons t2 ts =>
      show startsWithOpKeyword (joinSpace (encodeNode n :: t2 :: ts)) = false
      rw [joinSpace, he, List.cons_append]
      exact startsWithOpKeyword_cons h1 h2

theorem buildChain_eq_nest (l : List Interceptor) (core : SearchFunc) :
    buildInterceptorChain l core = interceptorNest l core := by
  induction l with
  | nil => rfl
  | cons i rest ih =>
    show buildInterceptorChain (i :: rest) core = _
    unfold buildInterceptorChain
    rw [List.reverse_cons, List.foldl_append]
    simp only [List.foldl_cons, List.foldl_nil]
    show (fun ctx p => i ctx p (buildInterceptorChain rest core)) = _
    rw [ih]
    rfl

/-- C2: `Client.Search` behaves as the nested composition of the registered
interceptors around the core search, with the first-registered interceptor
outermost; and when the outermost interceptor ignores its continuation, the
core search never influences the result (it is never run). -/
theorem interceptor_chain_composition :
    (∀ (c : ClientSem) (ctx : Ctx) (p : SearchParams),
      c.Search ctx p = interceptorNest c.interceptors c.doSearch ctx p) ∧
    (∀ (i : Interceptor) (rest : List Interceptor) (core core2 : SearchFunc)
        (ctx : Ctx) (p : SearchParams),
      (∀ ctx2 p2 n1 n2, i ctx2 p2 n1 = i ctx2 p2 n2) →
      ClientSem.Search ⟨i :: rest, core⟩ ctx p =
        ClientSem.Search ⟨i :: rest, core2⟩ ctx p) := by
  constructor
  · intro c ctx p
    show buildInterceptorChain c.interceptors c.doSearch ctx p = _
    rw [buildChain_eq_nest]
  · intro i rest core core2 ctx p h
    show buildInterceptorChain (i :: rest) core ctx p =
      buildInterceptorChain (i :: rest) core2 ctx p
    rw [buildChain_eq_nest, buildChain_eq_nest]
    exact h ctx p _ _

/-- Applies `interceptor_chain_composition` to a caching interceptor that
never calls `next`, over two different cores. -/
theorem interceptor_chain_composition_witness :
    ClientSem.Search ⟨[fun _ _ _ => ({ TotalResults := 999 }, none)],
        fun _ _ => ({ TotalResults := 1 }, none)⟩ Ctx.mk {} =
      ClientSem.Search ⟨[fun _ _ _ => ({ TotalResults := 999 }, none)],
        fun _ _ => ({ TotalResults := 2 }, none)⟩ Ctx.mk {} :=
  interceptor_chain_composition.2 _ [] _ _ Ctx.mk {} (fun _ _ _ _ => rfl)

/-- C3: when every physical attempt yields HTTP 503 and `MaxAttempts = 3`,
`RawSearch` performs exactly 3 attempts and surfaces the last response; when
every attempt yields HTTP 400, exactly one attempt is performed no matter
what the retry configuration says. -/
theorem rawsearch_attempt_counts :
    (∀ (ii mi : Int) (mu : ℚ),
      RawSearch (some ⟨3, ii, mi, mu⟩) (fun _ => (none, some ⟨503⟩)) {} =
        ((some ⟨503⟩, none), 3)) ∧
    (∀ rc : Option RetryConfig,
      RawSearch rc (fun _ => (none, some ⟨400⟩)) {} = ((some ⟨400⟩, none), 1)) := by
  constructor
  · intro ii mi mu
    rfl
  · intro rc
    have key : ∀ (M : Int) (k : Nat),
        rawSearchLoop (fun _ => (none, some ⟨400⟩)) M 1 (k + 1) (none, none) =
          ((some ⟨400⟩, none), 1) := by
      intro M k
      rw [rawSearchLoop]
      norm_num [isOKOutcome, isRetryableError]
    rcases rc with _ | cfg
    · exact key 1 0
    · show rawSearchLoop (fun _ => (none, some ⟨400⟩))
        (if cfg.MaxAttempts > 0 then cfg.MaxAttempts else 1) 1
        (if cfg.MaxAttempts > 0 then cfg.MaxAttempts else 1).toNat (none, none) = _
      by_cases h : cfg.MaxAttempts > 0
      · rw [if_pos h]
        have hk : cfg.MaxAttempts.toNat = (cfg.MaxAttempts.toNat - 1) + 1 := by omega
        rw [hk]
        exact key _ _
      · rw [if_neg h]
        exact key 1 0

/-- One `if x > m then m else x` step is a `min`. -/
theorem ite_gt_eq_min (x m : ℚ) : (if x > m then m else x) = min m x := by
  rcases le_or_lt x m with h | h
  · rw [if_neg (not_lt.2 h), min_eq_right h]
  · rw [if_pos h, min_eq_left h.le]

/-- C4: `calculateBackoff` returns zero for an absent configuration or a
non-positive attempt; otherwise it returns the capped exponential value
`min(maxInterval, initialInterval * multiplier^(attempt-1))` perturbed by
`0.1 * capped * (2r - 1)`, which always lies within ±10% of the capped
value. -/
theorem calculate_backoff_spec :
    (∀ (a : Int) (r : ℚ), calculateBackoff a none r = 0) ∧
    (∀ (a : Int) (cfg : RetryConfig) (r : ℚ), a ≤ 0 →
      calculateBackoff a (some cfg) r = 0) ∧
    (∀ (a : Int) (cfg : RetryConfig) (r : ℚ), 1 ≤ a → 0 ≤ r → r < 1 →
      0 ≤ cfg.InitialInterval → 0 ≤ cfg.MaxInterval → 0 ≤ cfg.Multiplier →
      calculateBackoff a (some cfg) r =
        min (cfg.MaxInterval : ℚ)
            ((cfg.InitialInterval : ℚ) * cfg.Multiplier ^ (a - 1).toNat) +
          0.1 * min (cfg.MaxInterval : ℚ)
            ((cfg.InitialInterval : ℚ) * cfg.Multiplier ^ (a - 1).toNat) *
            (2 * r - 1) ∧
      0.9 * min (cfg.MaxInterval : ℚ)
          ((cfg.InitialInterval : ℚ) * cfg.Multiplier ^ (a - 1).toNat) ≤
        calculateBackoff a (some cfg) r ∧
      calculateBackoff a (some cfg) r ≤
        1.1 * min (cfg.MaxInterval : ℚ)
          ((cfg.InitialInterval : ℚ) * cfg.Multiplier ^ (a - 1).toNat)) := by
  refine ⟨fun a r => rfl, fun a cfg r ha => ?_, fun a cfg r ha hr0 hr1 hi hm hmu => ?_⟩
  · simp only [calculateBackoff, if_pos ha]
  · have heq : calculateBackoff a (some cfg) r =
        min (cfg.MaxInterval : ℚ)
            ((cfg.InitialInterval : ℚ) * cfg.Multiplier ^ (a - 1).toNat) +
          0.1 * min (cfg.MaxInterval : ℚ)
            ((cfg.InitialInterval : ℚ) * cfg.Multiplier ^ (a - 1).toNat) *
            (2 * r - 1) := by
      simp only [calculateBackoff, if_neg (by omega : ¬a ≤ 0)]
      rw [ite_gt_eq_min]
    have hc : 0 ≤ min (cfg.MaxInterval : ℚ)
        ((cfg.InitialInterval : ℚ) * cfg.Multiplier ^ (a - 1).toNat) := by
      apply le_min
      · exact_mod_cast hm
      · exact mul_nonneg (by exact_mod_cast hi) (pow_nonneg hmu _)
    refine ⟨heq, ?_, ?_⟩
    · rw [heq]; nlinarith
    · rw [heq]; nlinarith

/-- Applies `calculate_backoff_spec` at attempt 3 with the configuration
`{maxAttempts 3, initial 10, max 30, multiplier 2}` and jitter draw `1/4`:
the capped core value is 30 and the result stays within ±10% of it. -/
theorem calculate_backoff_spec_witness :
    (1 : Int) ≤ 3 ∧ (0 : ℚ) ≤ 1 / 4 ∧ (1 / 4 : ℚ) < 1 ∧
      0.9 * min (30 : ℚ) ((10 : ℚ) * 2 ^ ((3 : Int) - 1).toNat) ≤
        calculateBackoff 3 (some ⟨3, 10, 30, 2⟩) (1 / 4) ∧
      calculateBackoff 3 (some ⟨3, 10, 30, 2⟩) (1 / 4) ≤
        1.1 * min (30 : ℚ) ((10 : ℚ) * 2 ^ ((3 : Int) - 1).toNat) :=
  ⟨by norm_num, by norm_num, by norm_num,
    (calculate_backoff_spec.2.2 3 ⟨3, 10, 30, 2⟩ (1 / 4) (by norm_num)
      (by norm_num) (by norm_num) (by norm_num) (by norm_num) (by norm_num)).2.1,
    (calculate_backoff_spec.2.2 3 ⟨3, 10, 30, 2⟩ (1 / 4) (by norm_num)
      (by norm_num) (by norm_num) (by norm_num) (by norm_num) (by norm_num)).2.2⟩

/-- C5: the pagination predicates match the cursor arithmetic of the spec,
and when they hold, `SearchNext` issues its search at
`startIndex + itemsPerPage` while `SearchPrevious` issues its search at
`max 0 (startIndex - itemsPerPage)`. -/
theorem pagination_cursor_spec :
    (∀ r : SearchResults, SearchHasMoreResults r = true ↔
      r.TotalResults > 0 ∧ r.StartIndex + r.ItemsPerPage < r.TotalResults) ∧
    (∀ r : SearchResults, SearchHasPreviousResults r = true ↔
      r.TotalResults > 0 ∧ r.StartIndex > 0) ∧
    (∀ (search : SearchParams → SearchResults × Option GoError)
        (r : SearchResults), SearchHasMoreResults r = true →
      SearchNext search r =
        search { r.Params with Start := r.StartIndex + r.ItemsPerPage }) ∧
    (∀ (search : SearchParams → SearchResults × Option GoError)
        (r : SearchResults), SearchHasPreviousResults r = true →
      SearchPrevious search r =
        search { r.Params with Start := max 0 (r.StartIndex - r.ItemsPerPage) }) := by
  refine ⟨fun r => ?_, fun r => ?_, fun search r h => ?_, fun search r h => ?_⟩
  · simp [SearchHasMoreResults]
  · simp [SearchHasPreviousResults]
  · rw [SearchNext, if_neg (by simp [h])]
  · rw [SearchPrevious, if_neg (by simp [h])]
    show search { r.Params with
      Start := if r.StartIndex - r.ItemsPerPage < 0 then 0
        else r.StartIndex - r.ItemsPerPage } = _
    have h2 : (if r.StartIndex - r.ItemsPerPage < 0 then 0
        else r.StartIndex - r.ItemsPerPage) = max 0 (r.StartIndex - r.ItemsPerPage) := by
      rcases lt_or_le (r.StartIndex - r.ItemsPerPage) 0 with h2 | h2
      · rw [if_pos h2, max_eq_left h2.le]
      · rw [if_neg (not_lt.2 h2), max_eq_right h2]
    rw [h2]

/-- Applies `pagination_cursor_spec` to a page with `totalResults = 100`,
`startIndex = 20`, `itemsPerPage = 20`: the next search starts at 40 and the
previous search starts at 0. -/
theorem pagination_cursor_spec_witness :
    SearchHasMoreResults { TotalResults := 100, StartIndex := 20, ItemsPerPage := 20 } = true ∧
    SearchNext (fun p => ({ StartIndex := p.Start }, none))
        { TotalResults := 100, StartIndex := 20, ItemsPerPage := 20 } =
      ({ StartIndex := 40 }, none) ∧
    SearchPrevious (fun p => ({ StartIndex := p.Start }, none))
        { TotalResults := 100, StartIndex := 20, ItemsPerPage := 20 } =
      ({ StartIndex := 0 }, none) := by
  refine ⟨by decide, ?_, ?_⟩
  · rw [pagination_cursor_spec.2.2.1 _ _ (by decide)]
    rfl
  · rw [pagination_cursor_spec.2.2.2 _ _ (by decide)]
    rfl

set_option maxRecDepth 8192 in
/-- C9 (failing input): the parser has no `lastUpdatedDate` case, so a
well-formed `lastUpdatedDate` range token fails with an unknown-field error
instead of producing a date-range node. -/
theorem parse_lastUpdatedDate_unknown_field :
    ParseSearchQuery "lastUpdatedDate:[202301010000 TO 202312312359]".toList =
      .error (.unknownField "lastUpdatedDate".toList) := by
  rfl

set_option maxRecDepth 8192 in
/-- C1 (counterexample): a builder-constructed group query serializes to
`(ti:a OR ti:b)`, but parsing drops the parentheses (the whole
parenthesized span even collapses into a single field token), so
re-encoding yields `ti:a OR ti:b`, not the original string. -/
theorem roundtrip_group_counterexample :
    (NewSearchQuery.Group (((NewSearchQuery.Title "a".toList).Or).Title "b".toList)).String =
      "(ti:a OR ti:b)".toList ∧
    ParseSearchQuery "(ti:a OR ti:b)".toList =
      .ok ⟨[.field .fieldTitle "a OR ti:b".toList]⟩ ∧
    SearchQuery.String ⟨[.field .fieldTitle "a OR ti:b".toList]⟩ =
      "ti:a OR ti:b".toList ∧
    "ti:a OR ti:b".toList ≠ "(ti:a OR ti:b)".toList :=
  ⟨rfl, rfl, rfl, by decide⟩

/-- C6 (counterexample): a bare word with no colon, and a `submittedDate`
token whose value is not a bracketed range, are both silently dropped by
`ParseSearchQuery` instead of producing an error. -/
theorem parse_silent_drop_counterexample :
    ParseSearchQuery "hello".toList = .ok ⟨[]⟩ ∧
    ParseSearchQuery "submittedDate:2023".toList = .ok ⟨[]⟩ :=
  ⟨rfl, rfl⟩

theorem tokenizeAux_no_paren : ∀ (s cur : Str) (p : Int) (b f : Bool),
    (∀ c ∈ cur, c ≠ '(' ∧ c ≠ ')') →
    ∀ t ∈ tokenizeAux s cur p b f, ∀ c ∈ t, c ≠ '(' ∧ c ≠ ')' := by
  intro s
  induction s with
  | nil =>
    intro cur p b f hcur t ht
    rw [tokenizeAux] at ht
    by_cases hc : cur.isEmpty
    · rw [if_pos hc] at ht; simp at ht
    · rw [if_neg hc] at ht
      simp only [List.mem_singleton] at ht
      subst ht
      exact hcur
  | cons c rest ih =>
    intro cur p b f hcur t ht
    have hnil : ∀ c2 ∈ ([] : Str), c2 ≠ '(' ∧ c2 ≠ ')' := by simp
    have hflush : ∀ (p2 : Int) (b2 f2 : Bool),
        t ∈ (if cur.isEmpty then tokenizeAux rest [] p2 b2 f2
             else cur :: tokenizeAux rest [] p2 b2 f2) →
        ∀ c2 ∈ t, c2 ≠ '(' ∧ c2 ≠ ')' := by
      intro p2 b2 f2 hmem
      by_cases hc : cur.isEmpty
      · rw [if_pos hc] at hmem
        exact ih _ _ _ _ hnil t hmem
      · rw [if_neg hc] at hmem
        rcases List.mem_cons.1 hmem with rfl | hmem2
        · exact hcur
        · exact ih _ _ _ _ hnil t hmem2
    have hwrite : ∀ (p2 : Int) (b2 f2 : Bool), ¬c = '(' → ¬c = ')' →
        t ∈ tokenizeAux rest (cur ++ [c]) p2 b2 f2 →
        ∀ c2 ∈ t, c2 ≠ '(' ∧ c2 ≠ ')' := by
      intro p2 b2 f2 hcp hcq hmem
      refine ih _ _ _ _ ?_ t hmem
      intro c2 hc2
      rcases List.mem_append.1 hc2 with hx | hx
      · exact hcur c2 hx
      · simp only [List.mem_cons, List.not_mem_nil, or_false] at hx
        subst hx
        exact ⟨hcp, hcq⟩
    simp only [tokenizeAux] at ht
    by_cases h1 : c = '('
    · rw [if_pos h1] at ht
      exact hflush _ _ _ ht
    rw [if_neg h1] at ht
    by_cases h2 : c = ')'
    · rw [if_pos h2] at ht
      exact hflush _ _ _ ht
    rw [if_neg h2] at ht
    by_cases h3 : c = '['
    · rw [if_pos h3] at ht
      exact hwrite _ _ _ h1 h2 ht
    rw [if_neg h3] at ht
    by_cases h4 : c = ']'
    · rw [if_pos h4] at ht
      exact hwrite _ _ _ h1 h2 ht
    rw [if_neg h4] at ht
    by_cases h5 : c = ':'
    · rw [if_pos h5] at ht
      exact hwrite _ _ _ h1 h2 ht
    rw [if_neg h5] at ht
    by_cases h6 : c = ' '
    · rw [if_pos h6] at ht
      by_cases h7 : p > 0 ∨ b = true
      · rw [if_pos h7] at ht
        exact hwrite _ _ _ h1 h2 ht
      rw [if_neg h7] at ht
      by_cases h8 : f = true
      · rw [if_pos h8] at ht
        by_cases h9 : isOperator (getNextWord rest) = true
        · rw [if_pos h9] at ht
          exact hflush _ _ _ ht
        rw [if_neg h9] at ht
        by_cases h10 : ':' ∈ getNextWord rest
        · rw [if_pos h10] at ht
          exact hflush _ _ _ ht
        · rw [if_neg h10] at ht
          exact hwrite _ _ _ h1 h2 ht
      · rw [if_neg h8] at ht
        exact hflush _ _ _ ht
    · rw [if_neg h6] at ht
      exact hwrite _ _ _ h1 h2 ht

/-- C10: no token produced by `tokenizeQuery` ever contains a parenthesis:
the `(` and `)` cases of the scanner always flush the current buffer and
only adjust the depth counter, whatever the bracket or field-value state
is. -/
theorem tokenizer_paren_invariant (s : Str) :
    (tokenizeQuery s).all (fun t => t.all (fun c => c ≠ '(' ∧ c ≠ ')')) = true := by
  rw [List.all_eq_true]
  intro t ht
  rw [List.all_eq_true]
  intro c hc
  have := tokenizeAux_no_paren s [] 0 false false (by simp) t ht c hc
  simpa using this

set_option maxRecDepth 8192 in
/-- C1 (amended): for every builder-constructed query made of field terms
over the seven plain fields, boolean operators, and valid `submittedDate`
ranges — no groups, and field values without structural characters
(`()[]:%+`), without a trailing space, and with no internal word equal to an
operator keyword — parsing the serialized string returns the same query, so
re-encoding it yields the original string. -/
theorem query_builder_roundtrip (ops : List BuilderOp) (h : goodOps ops = true) :
    ParseSearchQuery (runBuilder NewSearchQuery ops).String =
      .ok (runBuilder NewSearchQuery ops) ∧
    (ParseSearchQuery (runBuilder NewSearchQuery ops).String).map SearchQuery.String =
      .ok (runBuilder NewSearchQuery ops).String := by
  have h1 := roundtrip_wfNodes (runBuilder NewSearchQuery ops)
    (runBuilder_wf ops NewSearchQuery h rfl)
  exact ⟨h1, by rw [h1]; rfl⟩

set_option maxRecDepth 8192 in
/-- Applies `query_builder_roundtrip` to the builder program for
`ti:quantum computing AND cat:cs.LG AND submittedDate:[...]`. -/
theorem query_builder_roundtrip_witness :
    goodOps [BuilderOp.title "quantum computing".toList, BuilderOp.andOp,
      BuilderOp.category "cs.LG".toList,
      BuilderOp.submittedBetween ⟨2023, 1, 1, 0, 0⟩ ⟨2023, 12, 31, 23, 59⟩] = true ∧
    ParseSearchQuery (runBuilder NewSearchQuery
        [BuilderOp.title "quantum computing".toList, BuilderOp.andOp,
          BuilderOp.category "cs.LG".toList,
          BuilderOp.submittedBetween ⟨2023, 1, 1, 0, 0⟩ ⟨2023, 12, 31, 23, 59⟩]).String =
      .ok (runBuilder NewSearchQuery
        [BuilderOp.title "quantum computing".toList, BuilderOp.andOp,
          BuilderOp.category "cs.LG".toList,
          BuilderOp.submittedBetween ⟨2023, 1, 1, 0, 0⟩ ⟨2023, 12, 31, 23, 59⟩]) :=
  ⟨by decide, (query_builder_roundtrip _ (by decide)).1⟩

/-- C7: operator calls on an empty builder append nothing
(`NewSearchQuery().And().String() = ""`), and no builder-constructed query
serializes to a string beginning with an operator keyword. -/
theorem operator_first_suppression :
    (NewSearchQuery.And.String = [] ∧ NewSearchQuery.And.nodes = []) ∧
    (∀ q : SearchQuery, q.nodes = [] →
      q.And.nodes = [] ∧ q.Or.nodes = [] ∧ q.AndNot.nodes = []) ∧
    (∀ ops : List BuilderOp,
      startsWithOpKeyword (runBuilder NewSearchQuery ops).String = false) := by
  refine ⟨⟨rfl, rfl⟩, ?_, ?_⟩
  · intro q h
    refine ⟨?_, ?_, ?_⟩
    · rw [SearchQuery.And, if_neg (by rw [h]; simp)]
      exact h
    · rw [SearchQuery.Or, if_neg (by rw [h]; simp)]
      exact h
    · rw [SearchQuery.AndNot, if_neg (by rw [h]; simp)]
      exact h
  · intro ops
    apply startsWithOp_false_of_head
    apply runBuilder_head_not_op ops NewSearchQuery
    intro n t hcontra
    simp [NewSearchQuery] at hcontra

/-- Applies `operator_first_suppression` to the empty query. -/
theorem operator_first_suppression_witness :
    (⟨[]⟩ : SearchQuery).nodes = [] ∧ (SearchQuery.And ⟨[]⟩).nodes = [] :=
  ⟨rfl, (operator_first_suppression.2.1 ⟨[]⟩ rfl).1⟩

/-- C8 (amended): the builder's `SubmittedBetween` inserts an implicit `AND`
before the date range whenever the query is non-empty — even when the last
node is already an operator — and appends the date range alone to an empty
query; the parser's date-range branch instead calls `And()` only when a
previous token exists and is not an operator keyword. -/
theorem date_range_implicit_and :
    (∀ (q : SearchQuery) (s e : ArxivDate), q.nodes ≠ [] →
      (q.SubmittedBetween s e).nodes =
        q.nodes ++ [.opNode .opAnd, .dateRange .fieldSubmittedDate s e]) ∧
    (∀ (q : SearchQuery) (s e : ArxivDate), q.nodes = [] →
      (q.SubmittedBetween s e).nodes = [.dateRange .fieldSubmittedDate s e]) ∧
    (∀ (s e : ArxivDate), validDate s = true → validDate e = true →
      ∀ (ts : List Str) (q : SearchQuery) (prev : Option Str),
      parseTokens prev (encodeNode (.dateRange .fieldSubmittedDate s e) :: ts) q =
        parseTokens (some (encodeNode (.dateRange .fieldSubmittedDate s e))) ts
          ⟨(match prev with
            | some p => if ¬isOperator p then q.And else q
            | none => q).nodes ++ [.dateRange .fieldSubmittedDate s e]⟩) := by
  refine ⟨?_, ?_, ?_⟩
  · intro q s e h
    show (SearchQuery.SubmittedBetween q s e).nodes = _
    rw [SearchQuery.SubmittedBetween]
    simp only [if_pos (List.length_pos.2 h)]
    simp
  · intro q s e h
    show (SearchQuery.SubmittedBetween q s e).nodes = _
    rw [SearchQuery.SubmittedBetween]
    simp only [h]
    simp
    exact h
  · intro s e hs he ts q prev
    exact parse_date_token s e hs he ts q prev

/-- Applies `date_range_implicit_and` to a one-field query and to a
date-range token preceded by a non-operator token. -/
theorem date_range_implicit_and_witness :
    (⟨[QueryNode.field .fieldTitle "a".toList]⟩ : SearchQuery).nodes ≠ [] ∧
    (SearchQuery.SubmittedBetween ⟨[QueryNode.field .fieldTitle "a".toList]⟩
        ⟨2023, 1, 1, 0, 0⟩ ⟨2023, 1, 1, 0, 0⟩).nodes =
      [QueryNode.field .fieldTitle "a".toList, .opNode .opAnd,
        .dateRange .fieldSubmittedDate ⟨2023, 1, 1, 0, 0⟩ ⟨2023, 1, 1, 0, 0⟩] := by
  refine ⟨by simp, ?_⟩
  rw [date_range_implicit_and.1 _ ⟨2023, 1, 1, 0, 0⟩ ⟨2023, 1, 1, 0, 0⟩ (by simp)]
  rfl

/-- C6 (amended): `ParseSearchQuery` reports an unknown-field error for
`field:value` tokens with an unrecognized field name, but it silently drops
a bare word with no colon, and silently drops a `submittedDate` token whose
value is not wrapped in square brackets. -/
theorem parse_unclassified_tokens (w f v : Str)
    (hw1 : ∀ c ∈ w, charPlainB c = true) (hw2 : w ≠ [])
    (hw3 : isOperator w = false)
    (hf1 : ∀ c ∈ f, charPlainB c = true) (hf2 : knownField f = false)
    (hv : ∀ c ∈ v, charPlainB c = true ∧ c ≠ '%' ∧ c ≠ '+') :
    ParseSearchQuery w = .ok ⟨[]⟩ ∧
    ParseSearchQuery (f ++ ':' :: v) = .error (.unknownField f) ∧
    ParseSearchQuery ("submittedDate".toList ++ ':' :: v) = .ok ⟨[]⟩ := by
  have hvp : ∀ c ∈ v, charPlainB c = true := fun c hc => (hv c hc).1
  have hu : queryUnescape v = some v :=
    queryUnescape_id (fun c hc => ⟨(hv c hc).2.1, (hv c hc).2.2⟩)
  have hbr : ¬(v.take 1 = ['['] ∧ v.getLast? = some ']') := by
    rintro ⟨hb1, _⟩
    cases v with
    | nil => simp at hb1
    | cons c cs =>
      rw [show (1 : Nat) = 0 + 1 from rfl, List.take_succ_cons, List.take_zero] at hb1
      simp only [List.cons.injEq, and_true] at hb1
      subst hb1
      exact absurd (hvp '[' (by simp)) (by decide)
  refine ⟨?_, ?_, ?_⟩
  · have htok := tokenize_single_plain w hw1 hw2
    have hcolon : ':' ∉ w := fun hm => absurd (hw1 ':' hm) (by decide)
    have hops : ¬asciiUpper w = "AND".toList ∧ ¬asciiUpper w = "OR".toList ∧
        ¬asciiUpper w = "ANDNOT".toList := by
      simp only [isOperator, Bool.decide_or, Bool.or_eq_false_iff,
        decide_eq_false_iff_not] at hw3
      exact ⟨hw3.1, hw3.2.1, hw3.2.2⟩
    rw [ParseSearchQuery, if_neg (by simp [List.isEmpty_iff, hw2]), htok,
      parseTokens_cons, if_neg hops.1, if_neg hops.2.1, if_neg hops.2.2,
      if_neg hcolon, parseTokens_nil]
  · have htok := tokenize_single_field f v hf1 hvp
    have hcolon : ':' ∈ f ++ ':' :: v := List.mem_append_right _ (by simp)
    obtain ⟨hk1, hk2, hk3⟩ := not_kw_of_colon hcolon
    have hsp : splitFirstColon (f ++ ':' :: v) = (f, v) :=
      splitFirstColon_append (fun c hc => by
        intro he
        subst he
        exact absurd (hf1 ':' hc) (by decide))
    have hkf : ¬f = "ti".toList ∧ ¬f = "abs".toList ∧ ¬f = "au".toList ∧
        ¬f = "cat".toList ∧ ¬f = "co".toList ∧ ¬f = "jr".toList ∧
        ¬f = "all".toList ∧ ¬f = "submittedDate".toList := by
      simp only [knownField, Bool.decide_or, Bool.or_eq_false_iff,
        decide_eq_false_iff_not] at hf2
      exact ⟨hf2.1, hf2.2.1, hf2.2.2.1, hf2.2.2.2.1, hf2.2.2.2.2.1,
        hf2.2.2.2.2.2.1, hf2.2.2.2.2.2.2.1, hf2.2.2.2.2.2.2.2⟩
    rw [ParseSearchQuery, if_neg (by simp [List.isEmpty_iff]), htok,
      parseTokens_cons, if_neg hk1, if_neg hk2, if_neg hk3, if_pos hcolon]
    simp only [hsp, hu]
    rw [if_neg hkf.1, if_neg hkf.2.1, if_neg hkf.2.2.1, if_neg hkf.2.2.2.1,
      if_neg hkf.2.2.2.2.1, if_neg hkf.2.2.2.2.2.1, if_neg hkf.2.2.2.2.2.2.1,
      if_neg hkf.2.2.2.2.2.2.2]
  · have htok := tokenize_single_field "submittedDate".toList v (by decide) hvp
    have hcolon : ':' ∈ "submittedDate".toList ++ ':' :: v :=
      List.mem_append_right _ (by simp)
    obtain ⟨hk1, hk2, hk3⟩ := not_kw_of_colon hcolon
    have hsp : splitFirstColon ("submittedDate".toList ++ ':' :: v) =
        ("submittedDate".toList, v) :=
      splitFirstColon_append (by decide)
    rw [ParseSearchQuery, if_neg (by simp [List.isEmpty_iff]), htok,
      parseTokens_cons, if_neg hk1, if_neg hk2, if_neg hk3, if_pos hcolon]
    simp only [hsp, hu]
    rw [if_neg (by decide), if_neg (by decide), if_neg (by decide),
      if_neg (by decide), if_neg (by decide), if_neg (by decide),
      if_neg (by decide), if_pos (by decide), if_neg hbr, parseTokens_nil]

set_option maxRecDepth 8192 in
/-- Applies `parse_unclassified_tokens` to the bare word `hello`, the
unknown-field token `xyz:42`, and the bracket-less token
`submittedDate:42`. -/
theorem parse_unclassified_tokens_witness :
    isOperator "hello".toList = false ∧ knownField "xyz".toList = false ∧
    ParseSearchQuery "hello".toList = .ok ⟨[]⟩ ∧
    ParseSearchQuery ("xyz".toList ++ ':' :: "42".toList) =
      .error (.unknownField "xyz".toList) ∧
    ParseSearchQuery ("submittedDate".toList ++ ':' :: "42".toList) = .ok ⟨[]⟩ :=
  ⟨by decide, by decide,
    (parse_unclassified_tokens "hello".toList "xyz".toList "42".toList (by decide)
      (by decide) (by decide) (by decide) (by decide) (by decide)).1,
    (parse_unclassified_tokens "hello".toList "xyz".toList "42".toList (by decide)
      (by decide) (by decide) (by decide) (by decide) (by decide)).2.1,
    (parse_unclassified_tokens "hello".toList "xyz".toList "42".toList (by decide)
      (by decide) (by decide) (by decide) (by decide) (by decide)).2.2⟩

/-- C8 (counterexample): `SubmittedBetween` on a query whose last node is
already an `AND` operator still appends another implicit `AND`, yielding two
consecutive operators. -/
theorem submitted_between_double_and_counterexample :
    ((NewSearchQuery.Title "a".toList).And.SubmittedBetween
        ⟨2023, 1, 1, 0, 0⟩ ⟨2023, 1, 1, 0, 0⟩).nodes =
      [.field .fieldTitle "a".toList, .opNode .opAnd, .opNode .opAnd,
        .dateRange .fieldSubmittedDate ⟨2023, 1, 1, 0, 0⟩ ⟨2023, 1, 1, 0, 0⟩] := by
  rfl

end Arxiv
